import Mathlib

/-!
Shallow embedding of the MetaAgent core subsystems and a verification of the
specification's claims against it.

Embedded modules:
* `core/collaboration.py`  — `CollaborationManager.execute_plan`,
  `_execute_refinement_loop`, `_execute_action`;
* `memory/experience_hub.py` — `ExperienceHub.add_experience`,
  `retrieve_relevant_heuristics` over a `networkx.DiGraph`;
* `core/evolution_engine.py` — `EvolutionEngine._evolve_agent_template`.

Modelling conventions:
* Python floats carrying confidences and scores are modelled as rationals
  (`mkRat`); the only arithmetic performed on them in the source is comparison
  against the constants 0.75 and 0.8, where floats and rationals agree.
* Calls to the external text-generation service (`Agent.generate`) are
  modelled as oracles: either a pure function from the prompt to the reply, or
  a function of (call index, prompt) where a claim quantifies over reply
  sequences.  The service never raises (`base_agent.py` converts transport
  errors into low-confidence results), so oracles are total.
* Python `hash(...)` of a string is modelled as an injective function, i.e. the
  hashed content itself is used as the node identity; this is faithful up to
  hash collisions, which no claim is about.
* An uncaught Python exception is modelled as `Except.error` with the
  exception's description.
-/

/-- Python's substring test `needle in hay`, on explicit character lists
(structural recursion so that concrete instances reduce in the kernel). -/
def listContainsSub (needle : List Char) : List Char → Bool
  | [] => needle.isEmpty
  | c :: t => needle.isPrefixOf (c :: t) || listContainsSub needle t

/-- The accept test of `_execute_refinement_loop`:
Python `"CORRECT" in feedback.upper()`. -/
def acceptSentinel (feedback : String) : Bool :=
  listContainsSub "CORRECT".data (feedback.data.map Char.toUpper)

/-- Python `not s.strip()`: the string is empty or entirely whitespace. -/
def isBlank (s : String) : Bool :=
  s.data.all Char.isWhitespace

/-! ## core/collaboration.py -/

/-- `CollaborationManager.MAX_REFINE_LOOPS`. -/
def MAX_REFINE_LOOPS : Nat := 2

/-- `CollaborationManager.CONFIDENCE_THRESHOLD` (0.75). -/
def CONFIDENCE_THRESHOLD : ℚ := mkRat 3 4

/-- The dictionary returned by `Agent.generate`:
`{"response": ..., "confidence": ..., "reasoning": ...}`. -/
structure GenResult where
  response : String
  confidence : ℚ
  reasoning : String
deriving DecidableEq

/-- An agent as `execute_plan` consumes it: a name, a behavioural category
(`agent.type`), and the generation capability as a prompt-to-reply oracle. -/
structure Agent where
  name : String
  type : String
  generate : String → GenResult

/-- The review prompt of `_execute_refinement_loop`.  Python renders the
confidence with two decimals (`:.2f`); the exact rendering is irrelevant to
every property proved below and is abstracted by `toString`. -/
def reviewPrompt (cur : GenResult) : String :=
  "The following solution was generated with low confidence (" ++
    toString cur.confidence ++ ", Reason: " ++ cur.reasoning ++
    "). Please review it. If it is correct, respond with \x27CORRECT\x27. " ++
    "Otherwise, provide specific, actionable feedback for improvement.\n\nSolution:\n" ++
    cur.response

/-- The refine prompt of `_execute_refinement_loop`. -/
def refinePrompt (cur : GenResult) (feedback : String) : String :=
  "The previous solution was reviewed and needs improvement. Please generate a new, " ++
    "corrected solution based on the following feedback.\n\nOriginal Solution:\n" ++
    cur.response ++ "\n\nFeedback:\n" ++ feedback ++
    "\n\nProvide only the complete, new solution."

/-- The outcome of one invocation of the refinement loop.  `result` is the
returned solution dictionary; `reviewerCalls`/`refinerCalls` count the
generation calls made; `reviews` records the (solution under review, feedback)
pair of every iteration and `revisions` every refiner output, in order.  The
last three fields are ghost instrumentation used only to state properties. -/
structure RefineRun where
  result : GenResult
  reviewerCalls : Nat
  refinerCalls : Nat
  reviews : List (GenResult × String)
  revisions : List GenResult
deriving DecidableEq

/-- The `for i in range(...)` loop of `_execute_refinement_loop`.  The two
generation calls are oracles mapping (call index, prompt) to the service's
reply, so that every possible sequence of reviewer and refiner replies is
covered.  First argument of the recursion: remaining iterations; second: the
index `i` of the next iteration. -/
def refineIter (revGen refGen : Nat → String → GenResult) :
    Nat → Nat → GenResult → RefineRun
  | 0, _, cur => ⟨cur, 0, 0, [], []⟩
  | n + 1, i, cur =>
    let feedback := (revGen i (reviewPrompt cur)).response
    if acceptSentinel feedback then
      ⟨cur, 1, 0, [(cur, feedback)], []⟩
    else
      let newSol := refGen i (refinePrompt cur feedback)
      let rest := refineIter revGen refGen n (i + 1) newSol
      ⟨rest.result, rest.reviewerCalls + 1, rest.refinerCalls + 1,
        (cur, feedback) :: rest.reviews, newSol :: rest.revisions⟩

/-- The reviewer categories accepted by `_execute_refinement_loop`. -/
def reviewerTypes : List String := ["reviewer", "code_reviewer"]

/-- The refiner categories accepted by `_execute_refinement_loop`. -/
def refinerTypes : List String := ["executor", "code_generator", "hard_math_agent"]

/-- `next((agent for agent in agents if agent.type in [...]), None)` for the
reviewer: the first agent of a reviewer category. -/
def findReviewer (agents : List Agent) : Option Agent :=
  agents.find? (fun a => reviewerTypes.contains a.type)

/-- The first agent of a refiner category. -/
def findRefiner (agents : List Agent) : Option Agent :=
  agents.find? (fun a => refinerTypes.contains a.type)

/-- `CollaborationManager._execute_refinement_loop`: locate reviewer and
refiner; if either is missing, skip refinement and keep the original result;
otherwise run the bounded loop. -/
def execute_refinement_loop (initial : GenResult) (agents : List Agent) : RefineRun :=
  match findReviewer agents, findRefiner agents with
  | some r, some f =>
    refineIter (fun _ p => r.generate p) (fun _ p => f.generate p)
      MAX_REFINE_LOOPS 0 initial
  | _, _ => ⟨initial, 0, 0, [], []⟩

/-- A step's `input` field.  `stepIndex n` models a plan whose JSON carried the
integer `n`; `named s` models any other string.  (`step_outputs` is keyed by
the integer step index, so a string key never matches.) -/
inductive InputSource
  | taskDescription
  | previousOutput
  | stepIndex (n : Nat)
  | named (s : String)
deriving DecidableEq

/-- One entry of `plan["steps"]`. -/
structure Step where
  agent : String
  action : String
  input : InputSource
deriving DecidableEq

/-- `plan.get("final_output", "last_output")`.  `lastOutput` covers both the
literal `"last_output"` and the key being absent. -/
inductive FinalOutputSel
  | lastOutput
  | stepIndex (n : Nat)
  | named (s : String)
deriving DecidableEq

/-- A collaboration plan. -/
structure Plan where
  steps : List Step
  finalOutput : FinalOutputSel
deriving DecidableEq

/-- Input resolution inside the step loop of `execute_plan`.  `outputs` holds
the results of the `i` already-executed steps.  A reference that does not
resolve falls back to the empty string
(`step_outputs.get(input_source, {}).get("response", "")`); no error is
raised. -/
def resolveInput (task : String) (outputs : List GenResult) (i : Nat) :
    InputSource → String
  | .taskDescription => task
  | .previousOutput =>
    if i > 0 then ((outputs.get? (i - 1)).map GenResult.response).getD ""
    else ""
  | .stepIndex n => ((outputs.get? n).map GenResult.response).getD ""
  | .named _ => ""

/-- The lookup through `context["agents"] = {agent.name: agent for ...}`:
a later agent with the same name overwrites an earlier one. -/
def lookupAgent (agents : List Agent) (n : String) : Option Agent :=
  agents.reverse.find? (fun a => a.name == n)

/-- The `prompt_map` of `_execute_action`; an unknown action falls back to the
input content itself. -/
def actionPrompt (action inputContent : String) : String :=
  if action == "plan" then
    "Create a detailed plan to solve the following task:\n\n" ++ inputContent
  else if action == "execute" then
    "Implement a solution for the following task, based on this plan:\n\n" ++ inputContent
  else if action == "review" then
    "Review the following solution critically:\n\n" ++ inputContent
  else if action == "code" then
    "Write code to solve the following problem:\n\n" ++ inputContent
  else if action == "test" then
    "Write test cases for the following code:\n\n" ++ inputContent
  else if action == "debug" then
    "Debug the following code and fix any issues:\n\n" ++ inputContent
  else if action == "improve" then
    "Improve the following solution:\n\n" ++ inputContent
  else inputContent

/-- `CollaborationManager._execute_action`. -/
def execute_action (agent : Agent) (action inputContent : String) : GenResult :=
  agent.generate (actionPrompt action inputContent)

/-- The actions checked by the refinement trigger
(`if action in ["execute", "code", "improve"] and ...`). -/
def refineActions : List String := ["execute", "code", "improve"]

/-- One entry of `final_result["steps"]`.  `raw` (the result before the
refinement check) and `refine` (the refinement run, when one was triggered) are
ghost instrumentation; `output` is the recorded result dictionary. -/
structure StepRec where
  agent : String
  action : String
  raw : GenResult
  refine : Option RefineRun
  output : GenResult
deriving DecidableEq

/-- The value returned by `execute_plan`: the selected final output and the
recorded step list. -/
structure ExecResult where
  output : String
  steps : List StepRec
deriving DecidableEq

/-- The result a step's base action produces
(`result_dict = await self._execute_action(...)`). -/
def stepRaw (ag : Agent) (task : String) (outs : List GenResult) (i : Nat)
    (s : Step) : GenResult :=
  execute_action ag s.action (resolveInput task outs i s.input)

/-- The confidence-gated refinement trigger of the step loop: `some run`
exactly when `action in ["execute", "code", "improve"]` and the confidence is
strictly below the threshold. -/
def stepRun (agents : List Agent) (ag : Agent) (task : String)
    (outs : List GenResult) (i : Nat) (s : Step) : Option RefineRun :=
  if refineActions.contains s.action &&
      decide ((stepRaw ag task outs i s).confidence < CONFIDENCE_THRESHOLD) then
    some (execute_refinement_loop (stepRaw ag task outs i s) agents)
  else none

/-- The result recorded for a step (`result_dict = refined_result_dict` when
refinement ran). -/
def stepResult (agents : List Agent) (ag : Agent) (task : String)
    (outs : List GenResult) (i : Nat) (s : Step) : GenResult :=
  match stepRun agents ag task outs i s with
  | some r => r.result
  | none => stepRaw ag task outs i s

/-- The entry appended to `final_result["steps"]` for one step. -/
def stepRecord (agents : List Agent) (ag : Agent) (task : String)
    (outs : List GenResult) (i : Nat) (s : Step) : StepRec :=
  ⟨s.agent, s.action, stepRaw ag task outs i s, stepRun agents ag task outs i s,
    stepResult agents ag task outs i s⟩

/-- The step loop of `execute_plan`.  `i` is the index of the next step,
`outs` the outputs of the executed steps, `recs` the records so far.  The only
exception raised is `ValueError` for an unknown agent name. -/
def execSteps (agents : List Agent) (task : String) :
    List Step → Nat → List GenResult → List StepRec →
    Except String (List GenResult × List StepRec)
  | [], _, outs, recs => .ok (outs, recs)
  | s :: rest, i, outs, recs =>
    match lookupAgent agents s.agent with
    | none => .error ("Agent \x27" ++ s.agent ++ "\x27 not found")
    | some ag =>
      execSteps agents task rest (i + 1)
        (outs ++ [stepResult agents ag task outs i s])
        (recs ++ [stepRecord agents ag task outs i s])

/-- `CollaborationManager.execute_plan`. -/
def execute_plan (plan : Plan) (agents : List Agent) (task : String) :
    Except String ExecResult :=
  match execSteps agents task plan.steps 0 [] [] with
  | .error e => .error e
  | .ok (outs, recs) =>
    let out :=
      match plan.finalOutput with
      | .lastOutput =>
        if plan.steps.length > 0 then
          ((outs.get? (plan.steps.length - 1)).map GenResult.response).getD ""
        else ""
      | .stepIndex n => ((outs.get? n).map GenResult.response).getD ""
      | .named _ => ""
    .ok ⟨out, recs⟩

/-! ## memory/experience_hub.py -/

/-- The attribute dictionary of a graph node.  `heuristicData` is
`{type: 'heuristic', text, positive_count, negative_count}`; `patternData` is
`{type: 'successful_pattern', plan}` (note: no success counter and no
`last_used` attribute exist in the source); `bare` is the empty attribute
dictionary of a node created implicitly by `add_edge`. -/
inductive NodeData
  | heuristicData (text : String) (pos neg : Int)
  | patternData (plan : String)
  | bare
deriving DecidableEq

/-- A `networkx.DiGraph` as the hub uses it: nodes with attributes and directed
edges, both in insertion order (Python dicts preserve insertion order). -/
structure Graph where
  nodes : List (String × NodeData)
  edges : List (String × String)
deriving DecidableEq

/-- `graph.has_node`. -/
def hasNode (g : Graph) (nid : String) : Bool :=
  g.nodes.any (fun p => p.1 == nid)

/-- The attribute dictionary of a node, `None` if the node is absent. -/
def getNode (g : Graph) (nid : String) : Option NodeData :=
  (g.nodes.find? (fun p => p.1 == nid)).map Prod.snd

/-- `graph.add_node(nid, **attrs)`: create the node, or overwrite the
attributes of an existing node in place (the source only ever rewrites a
pattern node with the identical attributes, so overwrite coincides with
Python's attribute merge in every reachable case). -/
def setNode (g : Graph) (nid : String) (d : NodeData) : Graph :=
  if hasNode g nid then
    { g with nodes := g.nodes.map (fun p => if p.1 == nid then (nid, d) else p) }
  else
    { g with nodes := g.nodes ++ [(nid, d)] }

/-- `add_edge` creates a missing endpoint with an empty attribute dictionary. -/
def ensureNode (g : Graph) (nid : String) : Graph :=
  if hasNode g nid then g else { g with nodes := g.nodes ++ [(nid, .bare)] }

/-- `graph.add_edge(u, v)`: endpoints are created if missing; a duplicate edge
is a no-op. -/
def addEdge (g : Graph) (u v : String) : Graph :=
  let g1 := ensureNode (ensureNode g u) v
  if g1.edges.contains (u, v) then g1
  else { g1 with edges := g1.edges ++ [(u, v)] }

/-- `graph.successors(u)` in edge-insertion order. -/
def successors (g : Graph) (u : String) : List String :=
  (g.edges.filter (fun e => e.1 == u)).map Prod.snd

/-- `f"heuristic_{hash(takeaway)}"`, with the hash modelled injectively. -/
def heuristicId (t : String) : String := "heuristic_" ++ t

/-- `f"pattern_{hash(json.dumps(plan, sort_keys=True))}"`: the pattern identity
is the content hash of the canonicalised plan, modelled injectively; a plan is
carried as its canonical JSON serialisation. -/
def patternId (planJson : String) : String := "pattern_" ++ planJson

/-- `f"problem_{problem_type}"`. -/
def problemId (pt : String) : String := "problem_" ++ pt

/-- `f"concept_{concept}"`. -/
def conceptId (c : String) : String := "concept_" ++ c

/-- The fields of `task_analysis` the hub reads:
`task_analysis.get('task_type', 'generic')` and
`task_analysis.get('knowledge_domains', [])`. -/
structure TaskAnalysis where
  taskType : Option String
  knowledgeDomains : List String
deriving DecidableEq

/-- The resolved problem type. -/
def problemTypeOf (ta : TaskAnalysis) : String :=
  ta.taskType.getD "generic"

/-- The field of `result` the hub reads:
`result.get('context', {}).get('collaboration_plan')`, carried as the plan's
canonical JSON serialisation. -/
structure ResultInfo where
  collaborationPlan : Option String
deriving DecidableEq

/-- The field of `evaluation` the hub reads: `evaluation.get('score', 0)`. -/
structure EvalInfo where
  score : Option ℚ
deriving DecidableEq

/-- The field of `learnings` the hub reads: `learnings.get('abstract_takeaways')`. -/
structure Learnings where
  abstractTakeaways : List String
deriving DecidableEq

/-- `self.graph.nodes[successor].get('type') == 'heuristic'`. -/
def isHeuristicNode (g : Graph) (nid : String) : Bool :=
  match getNode g nid with
  | some (.heuristicData _ _ _) => true
  | _ => false

/-- The source nodes scanned by `retrieve_relevant_heuristics`:
`[f"problem_{problem_type}"] + [f"concept_{c}" for c in concepts]`. -/
def sourceNodes (ta : TaskAnalysis) : List String :=
  problemId (problemTypeOf ta) :: ta.knowledgeDomains.map conceptId

/-- The contents of the Python set `relevant_heuristic_ids`, listed in
first-encounter order.  The set's own iteration order is unspecified;
`retrieveWithListing` below takes the listing that `list(...)` happens to
produce as an explicit argument. -/
def relevantHeuristicIds (g : Graph) (ta : TaskAnalysis) : List String :=
  (sourceNodes ta).foldl
    (fun acc src =>
      if hasNode g src then
        (successors g src).foldl
          (fun acc2 s =>
            if isHeuristicNode g s && !(acc2.contains s) then acc2 ++ [s] else acc2)
          acc
      else acc)
    []

/-- The ranking key:
`nodes[hid].get('positive_count', 0) - nodes[hid].get('negative_count', 0)`. -/
def heuristicScore (g : Graph) (nid : String) : Int :=
  match getNode g nid with
  | some (.heuristicData _ p n) => p - n
  | _ => 0

/-- `self.graph.nodes[hid]['text']`; every ranked id carries heuristic
attributes, so the fallback is unreachable on the ids the source feeds in. -/
def heuristicText (g : Graph) (nid : String) : String :=
  match getNode g nid with
  | some (.heuristicData t _ _) => t
  | _ => ""

/-- Stable insertion step of a descending sort: `x` precedes every element it
was folded over, so it stays in front of equal scores. -/
def insertDesc (score : String → Int) (x : String) : List String → List String
  | [] => [x]
  | y :: ys => if score y ≤ score x then x :: y :: ys else y :: insertDesc score x ys

/-- The behaviour of `sorted(ids, key=score, reverse=True)`: a stable sort by
descending score. -/
def sortDesc (score : String → Int) (l : List String) : List String :=
  l.foldr (insertDesc score) []

/-- `retrieve_relevant_heuristics` as a function of the order in which the
Python set happens to be listed by `list(relevant_heuristic_ids)`. -/
def retrieveWithListing (g : Graph) (listing : List String) : List String :=
  (sortDesc (heuristicScore g) listing).map (heuristicText g)

/-- `ExperienceHub.retrieve_relevant_heuristics`, instantiated with the
first-encounter listing (one possible realisation of the set order). -/
def retrieve_relevant_heuristics (g : Graph) (ta : TaskAnalysis) : List String :=
  retrieveWithListing g (relevantHeuristicIds g ta)

/-- Loop body of the failure-with-lessons branch of `add_experience`: skip a
blank takeaway; create the heuristic node with counters `(0, 1)` or increment
`negative_count`; link it from the problem node and every concept node.
`Except.error` models the `KeyError` raised when the identity exists but does
not carry `negative_count`. -/
def processTakeaway (pt : String) (concepts : List String)
    (g : Graph) (t : String) : Except String Graph :=
  if isBlank t then .ok g else
  let hid := heuristicId t
  let step1 : Except String Graph :=
    if !(hasNode g hid) then
      .ok (setNode g hid (.heuristicData t 0 1))
    else
      match getNode g hid with
      | some (.heuristicData tx p n) => .ok (setNode g hid (.heuristicData tx p (n + 1)))
      | _ => .error "KeyError: negative_count"
  match step1 with
  | .error e => .error e
  | .ok g1 =>
    let g2 := addEdge g1 (problemId pt) hid
    .ok (concepts.foldl (fun gg c => addEdge gg (conceptId c) hid) g2)

/-- The first two statements of the success branch:
`add_node(pattern_id, type='successful_pattern', plan=plan)` followed by
`add_edge(problem_..., pattern_id)`. -/
def patternUpsert (pt planJson : String) (g : Graph) : Graph :=
  addEdge (setNode g (patternId planJson) (.patternData planJson))
    (problemId pt) (patternId planJson)

/-- The success branch of `add_experience` (score at least 0.8): upsert the
pattern node (attributes `type` and `plan` only), link it from the problem
node, then, for every retrieved heuristic, add an edge and increment
`positive_count`.  The retrieval returns heuristic TEXTS, so `add_edge`
creates a fresh attribute-less node named by the text and the subsequent
`nodes[...]['positive_count'] += 1` raises `KeyError` — modelled by
`Except.error`. -/
def successBranch (pt : String) (ta : TaskAnalysis) (res : ResultInfo)
    (g : Graph) : Except String Graph :=
  match res.collaborationPlan with
  | none => .ok g
  | some p =>
    let g2 := patternUpsert pt p g
    (retrieve_relevant_heuristics g2 ta).foldlM
      (fun gg text =>
        let gg1 := addEdge gg text (patternId p)
        match getNode gg1 text with
        | some (.heuristicData tx pp nn) =>
          .ok (setNode gg1 text (.heuristicData tx (pp + 1) nn))
        | _ => .error "KeyError: positive_count")
      g2

/-- The branch guard `if learnings and learnings.get('abstract_takeaways'):`
(a missing argument, an empty dictionary and an empty list are all falsy). -/
def lessonsTaken (learnings : Option Learnings) : Bool :=
  match learnings with
  | some l => !l.abstractTakeaways.isEmpty
  | none => false

/-- `ExperienceHub.add_experience`.  Persistence (`_save_graph`) is a
write-through of the returned graph and carries no additional logic. -/
def add_experience (ta : TaskAnalysis) (res : ResultInfo) (ev : EvalInfo)
    (learnings : Option Learnings) (g : Graph) : Except String Graph :=
  let pt := problemTypeOf ta
  if lessonsTaken learnings then
    match learnings with
    | some l => l.abstractTakeaways.foldlM (processTakeaway pt ta.knowledgeDomains) g
    | none => .ok g
  else if ev.score.getD 0 ≥ mkRat 4 5 then
    successBranch pt ta res g
  else .ok g

/-! ## core/evolution_engine.py -/

/-- A parsed JSON value, as `extract_and_parse_json` can produce one
(`json.loads` of the whole string can yield any JSON value, not only an object
or an array). -/
inductive JVal
  | str (s : String)
  | num (n : Int)
  | bool (b : Bool)
  | null
  | arr (elems : List JVal)
  | obj (fields : List (String × JVal))

/-- Python `element == key` for an element of a parsed JSON list compared with
a string: true exactly when the element is that string. -/
def JVal.eqStr : JVal → String → Bool
  | .str s, k => s == k
  | _, _ => false

/-- Python truthiness of a parsed JSON value. -/
def JVal.truthy : JVal → Bool
  | .str s => !s.data.isEmpty
  | .num n => n != 0
  | .bool b => b
  | .null => false
  | .arr l => !l.isEmpty
  | .obj l => !l.isEmpty

/-- Python `"system_prompt" in improved_template`: key membership for a
dictionary, element equality for a list, substring for a string, and a
`TypeError` for every other runtime type. -/
def pyContains (v : JVal) (key : String) : Except String Bool :=
  match v with
  | .obj fields => .ok (fields.any (fun p => p.1 == key))
  | .arr elems => .ok (elems.any (fun e => e.eqStr key))
  | .str s => .ok (listContainsSub key.data s.data)
  | _ => .error "TypeError: argument is not iterable"

/-- Python `improved_template["system_prompt"]` with a string key: only a
dictionary supports it; a list or a string raises `TypeError`. -/
def pyIndex (v : JVal) (key : String) : Except String JVal :=
  match v with
  | .obj fields =>
    match fields.find? (fun p => p.1 == key) with
    | some p => .ok p.2
    | none => .error "KeyError"
  | _ => .error "TypeError: indices must be integers"

/-- `agent_factory.agent_templates[agent_type] = template`
(`save_agent_template`): dictionary update. -/
def storeSet (store : List (String × JVal)) (k : String) (v : JVal) :
    List (String × JVal) :=
  if store.any (fun p => p.1 == k) then
    store.map (fun p => if p.1 == k then (k, v) else p)
  else store ++ [(k, v)]

/-- Outcome of one template-mutation attempt: the template store after the
attempt and whether the proposal was applied. -/
structure EvolveOutcome where
  templates : List (String × JVal)
  applied : Bool

/-- `EvolutionEngine._evolve_agent_template`.  The prompt assembly, the
generation call and `extract_and_parse_json(response)` are modelled by taking
the parse result as the `parsed` argument (`none` = the parse returned `None`).
`Except.error` models an uncaught Python exception escaping to the caller. -/
def evolve_agent_template (agentType : String) (parsed : Option JVal)
    (templates : List (String × JVal)) : Except String EvolveOutcome :=
  if agentType.data.isEmpty then .ok ⟨templates, false⟩ else
  match parsed with
  | none => .ok ⟨templates, false⟩
  | some v =>
    if !v.truthy then .ok ⟨templates, false⟩
    else
      match pyContains v "system_prompt" with
      | .error e => .error e
      | .ok false => .ok ⟨templates, false⟩
      | .ok true =>
        match pyIndex v "system_prompt" with
        | .error e => .error e
        | .ok (.str newPrompt) =>
          if newPrompt.data.length > 20 then
            .ok ⟨storeSet templates agentType v, true⟩
          else .ok ⟨templates, false⟩
        | .ok _ => .ok ⟨templates, false⟩

/-! ## Concrete instances used by the claim theorems, witnesses and
counterexamples -/

/-- A planner agent with a constant generation oracle. -/
def plannerAgent : Agent := ⟨"Planner", "planner", fun _ => ⟨"the plan", mkRat 1 2, "ok"⟩⟩

/-- An executor agent answering with confidence 0.9. -/
def executorAgent : Agent := ⟨"Executor", "executor", fun _ => ⟨"solution", mkRat 9 10, "sure"⟩⟩

/-- Scenario A plan: plan from the task description, then execute the previous
output. -/
def scenPlan : Plan :=
  ⟨[⟨"Planner", "plan", .taskDescription⟩, ⟨"Executor", "execute", .previousOutput⟩],
   .lastOutput⟩

/-- Scenario A agent pool. -/
def scenAgents : List Agent := [plannerAgent, executorAgent]

/-- The trajectory Scenario A produces. -/
def scenResult : ExecResult :=
  ⟨"solution",
   [⟨"Planner", "plan", ⟨"the plan", mkRat 1 2, "ok"⟩, none, ⟨"the plan", mkRat 1 2, "ok"⟩⟩,
    ⟨"Executor", "execute", ⟨"solution", mkRat 9 10, "sure"⟩, none,
      ⟨"solution", mkRat 9 10, "sure"⟩⟩]⟩

/-- A plan whose only step references step index 5, which has not executed. -/
def c2plan : Plan := ⟨[⟨"Planner", "custom", .stepIndex 5⟩], .lastOutput⟩

/-- A plan referencing an agent name absent from the pool. -/
def c2ghostPlan : Plan := ⟨[⟨"Ghost", "plan", .taskDescription⟩], .lastOutput⟩

/-- A reviewer oracle that always accepts. -/
def revAccept : Nat → String → GenResult := fun _ _ => ⟨"CORRECT", mkRat 1 1, ""⟩

/-- A reviewer oracle that never emits the accept sentinel. -/
def revReject : Nat → String → GenResult := fun _ _ => ⟨"needs work", mkRat 1 2, ""⟩

/-- A refiner oracle producing a distinct revision at every call. -/
def refinerSeq : Nat → String → GenResult := fun i _ => ⟨"rev" ++ toString i, mkRat 1 2, ""⟩

/-- A low-confidence initial solution. -/
def initSol : GenResult := ⟨"orig", mkRat 2 5, "unsure"⟩

/-- An agent of category `code_reviewer` (not `reviewer`) that accepts at once. -/
def c6codeReviewer : Agent := ⟨"CR", "code_reviewer", fun _ => ⟨"CORRECT", mkRat 1 1, ""⟩⟩

/-- An executor agent for the refiner role. -/
def c6executor : Agent := ⟨"Ex", "executor", fun _ => ⟨"new", mkRat 1 2, ""⟩⟩

/-- The low-confidence result entering refinement. -/
def c6init : GenResult := ⟨"sol", mkRat 1 2, "r"⟩

/-- Task analysis of category `math` with no concepts. -/
def c1ta : TaskAnalysis := ⟨some "math", []⟩

/-- A result carrying a collaboration plan (its canonical JSON). -/
def c1res : ResultInfo := ⟨some "PLAN"⟩

/-- An evaluation scoring 0.9. -/
def c1ev : EvalInfo := ⟨some (mkRat 9 10)⟩

/-- The graph after storing the successful plan `PLAN` once from the empty
graph: the pattern node (attributes `type` and `plan` only), the implicitly
created problem node, and one edge. -/
def c1graph : Graph :=
  ⟨[(patternId "PLAN", .patternData "PLAN"), (problemId "math", .bare)],
   [(problemId "math", patternId "PLAN")]⟩

/-- Task analysis for the heuristic-write scenarios. -/
def c7ta : TaskAnalysis := ⟨some "algebra", ["polynomials"]⟩

/-- A single abstracted takeaway. -/
def c7learnings : Learnings := ⟨["use induction"]⟩

/-- Task analysis of category `geo` with no concepts. -/
def c8ta : TaskAnalysis := ⟨some "geo", []⟩

/-- Two takeaways inserted in the order `tA`, `tB` (both end with counters
`(0, 1)`, so their ranking scores tie). -/
def c8learnings : Learnings := ⟨["tA", "tB"]⟩

/-- The graph after one failure-with-lessons write of `c8learnings` on the
empty graph. -/
def c8graph : Graph :=
  ⟨[(heuristicId "tA", .heuristicData "tA" 0 1), (problemId "geo", .bare),
    (heuristicId "tB", .heuristicData "tB" 0 1)],
   [(problemId "geo", heuristicId "tA"), (problemId "geo", heuristicId "tB")]⟩

/-- The graph after one failure-with-lessons write of `c7learnings` on the
empty graph: one heuristic node with counters `(0, 1)`, the implicitly created
problem and concept nodes, and the two links. -/
def c10graph : Graph :=
  ⟨[(heuristicId "use induction", .heuristicData "use induction" 0 1),
    (problemId "algebra", .bare), (conceptId "polynomials", .bare)],
   [(problemId "algebra", heuristicId "use induction"),
    (conceptId "polynomials", heuristicId "use induction")]⟩

/-- A template store holding one executor template. -/
def c9templates : List (String × JVal) :=
  [("executor", .obj [("system_prompt",
     .str "You are an Execution Agent responsible for implementing solutions.")])]

/-- The write-invariant of the failure-with-lessons branch: pattern nodes are
exactly preserved, and every existing heuristic node keeps its text and its
`positive_count` while its `negative_count` never decreases. -/
def preservesKnowledge (g g' : Graph) : Prop :=
  (∀ nid q, getNode g' nid = some (.patternData q) ↔
    getNode g nid = some (.patternData q)) ∧
  (∀ nid s p n, getNode g nid = some (.heuristicData s p n) →
    ∃ m, getNode g' nid = some (.heuristicData s p m) ∧ n ≤ m)

/-! ## Lemmas about the refinement loop -/

theorem refineIter_zero (revGen refGen : Nat → String → GenResult) (i : Nat)
    (init : GenResult) : refineIter revGen refGen 0 i init = ⟨init, 0, 0, [], []⟩ := rfl

theorem refineIter_succ_accept (revGen refGen : Nat → String → GenResult)
    (n i : Nat) (init : GenResult)
    (h : acceptSentinel ((revGen i (reviewPrompt init)).response) = true) :
    refineIter revGen refGen (n + 1) i init =
      ⟨init, 1, 0, [(init, (revGen i (reviewPrompt init)).response)], []⟩ := by
  simp only [refineIter, h, if_true]

theorem refineIter_succ_reject (revGen refGen : Nat → String → GenResult)
    (n i : Nat) (init : GenResult)
    (h : acceptSentinel ((revGen i (reviewPrompt init)).response) = false) :
    refineIter revGen refGen (n + 1) i init =
      (let fb := (revGen i (reviewPrompt init)).response
       let newSol := refGen i (refinePrompt init fb)
       let rest := refineIter revGen refGen n (i + 1) newSol
       ⟨rest.result, rest.reviewerCalls + 1, rest.refinerCalls + 1,
         (init, fb) :: rest.reviews, newSol :: rest.revisions⟩) := by
  simp only [refineIter, h]
  rfl

theorem refineIter_reviewerCalls (revGen refGen : Nat → String → GenResult) :
    ∀ (fuel i : Nat) (init : GenResult),
    (refineIter revGen refGen fuel i init).reviewerCalls =
      (refineIter revGen refGen fuel i init).reviews.length := by
  intro fuel
  induction fuel with
  | zero => intro i init; rfl
  | succ n ih =>
    intro i init
    cases h : acceptSentinel ((revGen i (reviewPrompt init)).response) with
    | true => rw [refineIter_succ_accept revGen refGen n i init h]; rfl
    | false =>
      rw [refineIter_succ_reject revGen refGen n i init h]
      simp only [List.length_cons]
      rw [ih]

theorem refineIter_refinerCalls (revGen refGen : Nat → String → GenResult) :
    ∀ (fuel i : Nat) (init : GenResult),
    (refineIter revGen refGen fuel i init).refinerCalls =
      (refineIter revGen refGen fuel i init).revisions.length := by
  intro fuel
  induction fuel with
  | zero => intro i init; rfl
  | succ n ih =>
    intro i init
    cases h : acceptSentinel ((revGen i (reviewPrompt init)).response) with
    | true => rw [refineIter_succ_accept revGen refGen n i init h]; rfl
    | false =>
      rw [refineIter_succ_reject revGen refGen n i init h]
      simp only [List.length_cons]
      rw [ih]

theorem refineIter_reviews_le (revGen refGen : Nat → String → GenResult) :
    ∀ (fuel i : Nat) (init : GenResult),
    (refineIter revGen refGen fuel i init).reviews.length ≤ fuel := by
  intro fuel
  induction fuel with
  | zero => intro i init; exact Nat.le_refl 0
  | succ n ih =>
    intro i init
    cases h : acceptSentinel ((revGen i (reviewPrompt init)).response) with
    | true =>
      rw [refineIter_succ_accept revGen refGen n i init h]
      exact Nat.succ_le_succ (Nat.zero_le n)
    | false =>
      rw [refineIter_succ_reject revGen refGen n i init h]
      simpa using Nat.succ_le_succ (ih (i + 1) _)

theorem refineIter_revisions_le_reviews (revGen refGen : Nat → String → GenResult) :
    ∀ (fuel i : Nat) (init : GenResult),
    (refineIter revGen refGen fuel i init).revisions.length ≤
      (refineIter revGen refGen fuel i init).reviews.length := by
  intro fuel
  induction fuel with
  | zero => intro i init; exact Nat.le_refl 0
  | succ n ih =>
    intro i init
    cases h : acceptSentinel ((revGen i (reviewPrompt init)).response) with
    | true =>
      rw [refineIter_succ_accept revGen refGen n i init h]
      exact Nat.zero_le 1
    | false =>
      rw [refineIter_succ_reject revGen refGen n i init h]
      simpa using Nat.succ_le_succ (ih (i + 1) _)

theorem refineIter_result_getLast (revGen refGen : Nat → String → GenResult) :
    ∀ (fuel i : Nat) (init : GenResult),
    (refineIter revGen refGen fuel i init).result =
      (init :: (refineIter revGen refGen fuel i init).revisions).getLast (by simp) := by
  intro fuel
  induction fuel with
  | zero => intro i init; rfl
  | succ n ih =>
    intro i init
    cases h : acceptSentinel ((revGen i (reviewPrompt init)).response) with
    | true => rw [refineIter_succ_accept revGen refGen n i init h]; rfl
    | false =>
      rw [refineIter_succ_reject revGen refGen n i init h]
      simp only []
      rw [List.getLast_cons (by simp), ← ih (i + 1)]

theorem refineIter_reviews_ne_nil (revGen refGen : Nat → String → GenResult)
    (n i : Nat) (init : GenResult) :
    (refineIter revGen refGen (n + 1) i init).reviews ≠ [] := by
  cases h : acceptSentinel ((revGen i (reviewPrompt init)).response) with
  | true => rw [refineIter_succ_accept revGen refGen n i init h]; simp
  | false => rw [refineIter_succ_reject revGen refGen n i init h]; simp

theorem refineIter_last_review (revGen refGen : Nat → String → GenResult) :
    ∀ (fuel i : Nat) (init : GenResult) (sol : GenResult) (fb : String),
    (refineIter revGen refGen fuel i init).reviews.getLast? = some (sol, fb) →
    (acceptSentinel fb = true →
      (refineIter revGen refGen fuel i init).revisions.length =
        (refineIter revGen refGen fuel i init).reviews.length - 1 ∧
      (refineIter revGen refGen fuel i init).result = sol) ∧
    (acceptSentinel fb = false →
      (refineIter revGen refGen fuel i init).reviews.length = fuel ∧
      (refineIter revGen refGen fuel i init).revisions.length = fuel) := by
  intro fuel
  induction fuel with
  | zero => intro i init sol fb h; simp [refineIter_zero] at h
  | succ n ih =>
    intro i init sol fb hlast
    cases h : acceptSentinel ((revGen i (reviewPrompt init)).response) with
    | true =>
      rw [refineIter_succ_accept revGen refGen n i init h] at hlast ⊢
      simp only [List.getLast?_singleton, Option.some_inj, Prod.mk.injEq] at hlast
      obtain ⟨hsol, hfb⟩ := hlast
      refine ⟨fun _ => ⟨rfl, hsol⟩, fun hfalse => ?_⟩
      rw [← hfb, h] at hfalse
      simp at hfalse
    | false =>
      rw [refineIter_succ_reject revGen refGen n i init h] at hlast ⊢
      simp only [] at hlast ⊢
      cases n with
      | zero =>
        simp only [refineIter_zero] at hlast ⊢
        simp only [List.getLast?_singleton, Option.some_inj, Prod.mk.injEq] at hlast
        obtain ⟨hsol, hfb⟩ := hlast
        refine ⟨fun htrue => ?_, fun _ => ⟨rfl, rfl⟩⟩
        rw [← hfb, h] at htrue
        simp at htrue
      | succ m =>
        have hne := refineIter_reviews_ne_nil revGen refGen m (i + 1)
          (refGen i (refinePrompt init ((revGen i (reviewPrompt init)).response)))
        rcases hrest : (refineIter revGen refGen (m + 1) (i + 1)
            (refGen i (refinePrompt init ((revGen i (reviewPrompt init)).response)))).reviews
          with _ | ⟨r0, rrest⟩
        · exact absurd hrest hne
        · have hlast' : (refineIter revGen refGen (m + 1) (i + 1)
              (refGen i (refinePrompt init
                ((revGen i (reviewPrompt init)).response)))).reviews.getLast?
              = some (sol, fb) := by
            rw [hrest] at hlast
            rw [hrest]
            rwa [List.getLast?_cons_cons] at hlast
          have hih := ih (i + 1) _ sol fb hlast'
          have hlenrest : (refineIter revGen refGen (m + 1) (i + 1)
              (refGen i (refinePrompt init
                ((revGen i (reviewPrompt init)).response)))).reviews.length
              = rrest.length + 1 := by rw [hrest]; rfl
          refine ⟨fun htrue => ?_, fun hfalse => ?_⟩
          · obtain ⟨hlen, hres⟩ := hih.1 htrue
            refine ⟨?_, hres⟩
            simp only [List.length_cons]
            omega
          · obtain ⟨hlen1, hlen2⟩ := hih.2 hfalse
            simp only [List.length_cons]
            omega

theorem refineIter_dropLast_reject (revGen refGen : Nat → String → GenResult) :
    ∀ (fuel i : Nat) (init : GenResult),
    ∀ p ∈ (refineIter revGen refGen fuel i init).reviews.dropLast,
      acceptSentinel p.2 = false := by
  intro fuel
  induction fuel with
  | zero => intro i init p hp; simp [refineIter_zero] at hp
  | succ n ih =>
    intro i init p hp
    cases h : acceptSentinel ((revGen i (reviewPrompt init)).response) with
    | true =>
      rw [refineIter_succ_accept revGen refGen n i init h] at hp
      simp at hp
    | false =>
      rw [refineIter_succ_reject revGen refGen n i init h] at hp
      simp only [] at hp
      rcases hrest : (refineIter revGen refGen n (i + 1)
          (refGen i (refinePrompt init ((revGen i (reviewPrompt init)).response)))).reviews
        with _ | ⟨r0, rrest⟩
      · rw [hrest] at hp; simp at hp
      · rw [hrest] at hp
        rw [show ((init, (revGen i (reviewPrompt init)).response) :: r0 :: rrest).dropLast
            = (init, (revGen i (reviewPrompt init)).response) :: (r0 :: rrest).dropLast
            from rfl] at hp
        rcases List.mem_cons.mp hp with heq | hmem
        · subst heq; exact h
        · have hrec := ih (i + 1)
            (refGen i (refinePrompt init ((revGen i (reviewPrompt init)).response))) p
          rw [hrest] at hrec
          exact hrec hmem

/-! ## Claim theorems: refinement loop and evolution engine -/

/-- C4: for every invocation of the refinement sub-loop and every possible
sequence of reviewer and refiner replies — including a reviewer that never
emits the accept sentinel — the loop makes at most `MAX_REFINE_LOOPS`
reviewer calls and at most `MAX_REFINE_LOOPS` refiner calls, terminates (it is
a total function), and returns the latest solution (the last refiner revision,
or the initial solution when no revision was produced); the bound also holds
for `_execute_refinement_loop` run on any agent pool. -/
theorem refinement_loop_terminates_bounded
    (revGen refGen : Nat → String → GenResult) (i : Nat) (init : GenResult)
    (agents : List Agent) :
    (refineIter revGen refGen MAX_REFINE_LOOPS i init).reviewerCalls ≤ MAX_REFINE_LOOPS ∧
    (refineIter revGen refGen MAX_REFINE_LOOPS i init).refinerCalls ≤ MAX_REFINE_LOOPS ∧
    (refineIter revGen refGen MAX_REFINE_LOOPS i init).result =
      (init :: (refineIter revGen refGen MAX_REFINE_LOOPS i init).revisions).getLast
        (by simp) ∧
    (execute_refinement_loop init agents).reviewerCalls ≤ MAX_REFINE_LOOPS := by
  refine ⟨?_, ?_, refineIter_result_getLast revGen refGen MAX_REFINE_LOOPS i init, ?_⟩
  · rw [refineIter_reviewerCalls]
    exact refineIter_reviews_le revGen refGen MAX_REFINE_LOOPS i init
  · rw [refineIter_refinerCalls]
    exact le_trans (refineIter_revisions_le_reviews revGen refGen MAX_REFINE_LOOPS i init)
      (refineIter_reviews_le revGen refGen MAX_REFINE_LOOPS i init)
  · cases hr : findReviewer agents with
    | none => simp [execute_refinement_loop, hr]
    | some r =>
      cases hf : findRefiner agents with
      | none => simp [execute_refinement_loop, hr, hf]
      | some f =>
        simp only [execute_refinement_loop, hr, hf]
        rw [refineIter_reviewerCalls]
        exact refineIter_reviews_le _ _ MAX_REFINE_LOOPS 0 init

/-- C5: when the reviewer's reply first contains the accept sentinel on
iteration `k` (the loop exits at the first accept, so the accepting review is
the last recorded one and every earlier reply lacks the sentinel), exactly `k`
reviewer calls and `k - 1` refiner calls occur and the solution reviewed on
iteration `k` is returned unchanged; when the reviewer never accepts across
the `MAX_REFINE_LOOPS` iterations, the returned solution is the refiner's
second revision. -/
theorem refinement_accept_at_k (revGen refGen : Nat → String → GenResult)
    (init : GenResult) :
    (∀ (k : Nat) (sol : GenResult) (fb : String),
      (refineIter revGen refGen MAX_REFINE_LOOPS 0 init).reviews.length = k →
      (refineIter revGen refGen MAX_REFINE_LOOPS 0 init).reviews.getLast? = some (sol, fb) →
      acceptSentinel fb = true →
      (refineIter revGen refGen MAX_REFINE_LOOPS 0 init).reviewerCalls = k ∧
      (refineIter revGen refGen MAX_REFINE_LOOPS 0 init).refinerCalls = k - 1 ∧
      (refineIter revGen refGen MAX_REFINE_LOOPS 0 init).result = sol ∧
      (∀ p ∈ (refineIter revGen refGen MAX_REFINE_LOOPS 0 init).reviews.dropLast,
        acceptSentinel p.2 = false)) ∧
    ((∀ p ∈ (refineIter revGen refGen MAX_REFINE_LOOPS 0 init).reviews,
        acceptSentinel p.2 = false) →
      (refineIter revGen refGen MAX_REFINE_LOOPS 0 init).reviewerCalls = MAX_REFINE_LOOPS ∧
      (refineIter revGen refGen MAX_REFINE_LOOPS 0 init).revisions.get? 1 =
        some (refineIter revGen refGen MAX_REFINE_LOOPS 0 init).result) := by
  constructor
  · intro k sol fb hk hlast hacc
    have hcounts := (refineIter_last_review revGen refGen MAX_REFINE_LOOPS 0 init sol fb
      hlast).1 hacc
    refine ⟨?_, ?_, hcounts.2, refineIter_dropLast_reject revGen refGen MAX_REFINE_LOOPS 0 init⟩
    · rw [refineIter_reviewerCalls]; exact hk
    · rw [refineIter_refinerCalls, hcounts.1, hk]
  · intro hall
    have hne : (refineIter revGen refGen MAX_REFINE_LOOPS 0 init).reviews ≠ [] :=
      refineIter_reviews_ne_nil revGen refGen 1 0 init
    rcases hgl : (refineIter revGen refGen MAX_REFINE_LOOPS 0 init).reviews.getLast?
      with _ | ⟨sol, fb⟩
    · exact absurd (List.getLast?_eq_none_iff.mp hgl) hne
    · have hmem : (sol, fb) ∈ (refineIter revGen refGen MAX_REFINE_LOOPS 0 init).reviews :=
        List.mem_of_mem_getLast? hgl
      have hfb : acceptSentinel fb = false := hall (sol, fb) hmem
      have hlens := (refineIter_last_review revGen refGen MAX_REFINE_LOOPS 0 init sol fb
        hgl).2 hfb
      constructor
      · rw [refineIter_reviewerCalls]; exact hlens.1
      · have hrevne : (refineIter revGen refGen MAX_REFINE_LOOPS 0 init).revisions ≠ [] := by
          intro hnil
          rw [hnil] at hlens
          simp [MAX_REFINE_LOOPS] at hlens
        have hres := refineIter_result_getLast revGen refGen MAX_REFINE_LOOPS 0 init
        rw [List.getLast_cons hrevne] at hres
        rw [hres, ← List.getLast?_eq_getLast _ hrevne]
        rw [List.getLast?_eq_getElem?, hlens.2]
        rw [List.get?_eq_getElem?]
        rfl

/-- C6 (amended): the refinement loop requires one agent whose category is in
{reviewer, code_reviewer} and one whose category is in
{executor, code_generator, hard_math_agent}; whenever either is absent from
the pool, refinement is skipped entirely — zero reviewer calls, zero refiner
calls, the original result kept, and no error raised (the function is total);
when both are present, at least one reviewer call occurs. -/
theorem refinement_skip_without_roles (agents : List Agent) (init : GenResult) :
    ((findReviewer agents = none ∨ findRefiner agents = none) →
      execute_refinement_loop init agents = ⟨init, 0, 0, [], []⟩) ∧
    (findReviewer agents = none ↔ ∀ a ∈ agents, reviewerTypes.contains a.type = false) ∧
    (findRefiner agents = none ↔ ∀ a ∈ agents, refinerTypes.contains a.type = false) ∧
    (findReviewer agents ≠ none → findRefiner agents ≠ none →
      1 ≤ (execute_refinement_loop init agents).reviewerCalls) := by
  refine ⟨?_, ?_, ?_, ?_⟩
  · intro hnone
    cases hr : findReviewer agents with
    | none => simp [execute_refinement_loop, hr]
    | some r =>
      cases hf : findRefiner agents with
      | none => simp [execute_refinement_loop, hr, hf]
      | some f =>
        rcases hnone with hnone | hnone
        · rw [hr] at hnone; exact absurd hnone (by simp)
        · rw [hf] at hnone; exact absurd hnone (by simp)
  · rw [findReviewer, List.find?_eq_none]
    constructor
    · intro h a ha
      have := h a ha
      simpa using this
    · intro h a ha
      simpa using h a ha
  · rw [findRefiner, List.find?_eq_none]
    constructor
    · intro h a ha
      have := h a ha
      simpa using this
    · intro h a ha
      simpa using h a ha
  · intro hr hf
    cases hrv : findReviewer agents with
    | none => exact absurd hrv hr
    | some r =>
      cases hfv : findRefiner agents with
      | none => exact absurd hfv hf
      | some f =>
        simp only [execute_refinement_loop, hrv, hfv]
        rw [refineIter_reviewerCalls]
        have hne := refineIter_reviews_ne_nil (fun _ p => r.generate p)
          (fun _ p => f.generate p) 1 0 init
        have hpos : 0 < (refineIter (fun _ p => r.generate p) (fun _ p => f.generate p)
            MAX_REFINE_LOOPS 0 init).reviews.length := List.length_pos.mpr hne
        exact hpos

/-- C6 witness for the skip case: a pool holding only a planner has neither a
reviewer-category agent nor a refiner-category agent, so the loop is a no-op
keeping the original result with zero calls. -/
theorem refinement_skip_witness :
    execute_refinement_loop initSol [plannerAgent] = ⟨initSol, 0, 0, [], []⟩ :=
  (refinement_skip_without_roles [plannerAgent] initSol).1 (Or.inl rfl)

/-- C6 counterexample: a pool with no agent of category `reviewer` but with a
`code_reviewer` agent still runs refinement (one reviewer call is made and the
accepted solution returned), so the claim that an absent `reviewer` category
always skips refinement is false on the code. -/
theorem c6_counterexample :
    ([c6codeReviewer, c6executor].all (fun a => a.type != "reviewer") = true) ∧
    (execute_refinement_loop c6init [c6codeReviewer, c6executor]).reviewerCalls = 1 ∧
    (execute_refinement_loop c6init [c6codeReviewer, c6executor]).result = c6init :=
  ⟨rfl, rfl, rfl⟩

/-- C9: evaluating `_evolve_agent_template` at the failing inputs.  When the
generated response parses to the JSON array `["system_prompt"]` (or to a bare
number), the unguarded `"system_prompt" in improved_template` /
`improved_template["system_prompt"]` code raises `TypeError`, which escapes to
the calling task flow instead of the documented non-fatal
`applied: false` outcome; the template store is not committed either way. -/
theorem c9_crash_on_nondict_parse :
    evolve_agent_template "executor" (some (.arr [.str "system_prompt"])) c9templates =
      .error "TypeError: indices must be integers" ∧
    evolve_agent_template "executor" (some (.num 42)) c9templates =
      .error "TypeError: argument is not iterable" :=
  ⟨rfl, rfl⟩

/-- C5 witness: a reviewer accepting at once yields one reviewer call, zero
refiner calls and the unchanged initial solution; a reviewer that never
accepts yields `MAX_REFINE_LOOPS` reviewer calls and the refiner's second
revision as the result. -/
theorem refinement_accept_witness :
    ((refineIter revAccept refinerSeq MAX_REFINE_LOOPS 0 initSol).reviewerCalls = 1 ∧
     (refineIter revAccept refinerSeq MAX_REFINE_LOOPS 0 initSol).refinerCalls = 0 ∧
     (refineIter revAccept refinerSeq MAX_REFINE_LOOPS 0 initSol).result = initSol) ∧
    ((refineIter revReject refinerSeq MAX_REFINE_LOOPS 0 initSol).reviewerCalls =
        MAX_REFINE_LOOPS ∧
     (refineIter revReject refinerSeq MAX_REFINE_LOOPS 0 initSol).revisions.get? 1 =
        some (refineIter revReject refinerSeq MAX_REFINE_LOOPS 0 initSol).result) := by
  constructor
  · have h := (refinement_accept_at_k revAccept refinerSeq initSol).1 1 initSol "CORRECT"
      (by rfl) (by rfl) (by rfl)
    exact ⟨h.1, h.2.1, h.2.2.1⟩
  · exact (refinement_accept_at_k revReject refinerSeq initSol).2 (by decide)

/-! ## Lemmas about the step loop of `execute_plan` -/

theorem execSteps_nil (agents : List Agent) (task : String) (i : Nat)
    (outs : List GenResult) (recs : List StepRec) :
    execSteps agents task [] i outs recs = .ok (outs, recs) := rfl

theorem execSteps_cons_unknown (agents : List Agent) (task : String) (s : Step)
    (rest : List Step) (i : Nat) (outs : List GenResult) (recs : List StepRec)
    (h : lookupAgent agents s.agent = none) :
    execSteps agents task (s :: rest) i outs recs =
      .error ("Agent \x27" ++ s.agent ++ "\x27 not found") := by
  simp only [execSteps, h]

theorem execSteps_cons_known (agents : List Agent) (task : String) (s : Step)
    (rest : List Step) (i : Nat) (outs : List GenResult) (recs : List StepRec)
    (ag : Agent) (h : lookupAgent agents s.agent = some ag) :
    execSteps agents task (s :: rest) i outs recs =
      execSteps agents task rest (i + 1)
        (outs ++ [stepResult agents ag task outs i s])
        (recs ++ [stepRecord agents ag task outs i s]) := by
  simp only [execSteps, h]

theorem execSteps_error_iff (agents : List Agent) (task : String) :
    ∀ (steps : List Step) (i : Nat) (outs : List GenResult) (recs : List StepRec),
    (∃ e, execSteps agents task steps i outs recs = .error e) ↔
    (∃ s ∈ steps, lookupAgent agents s.agent = none) := by
  intro steps
  induction steps with
  | nil =>
    intro i outs recs
    simp [execSteps_nil]
  | cons s rest ih =>
    intro i outs recs
    cases h : lookupAgent agents s.agent with
    | none =>
      constructor
      · intro _
        exact ⟨s, List.mem_cons_self s rest, h⟩
      · intro _
        exact ⟨_, execSteps_cons_unknown agents task s rest i outs recs h⟩
    | some ag =>
      rw [execSteps_cons_known agents task s rest i outs recs ag h]
      constructor
      · intro he
        obtain ⟨s', hs', hnone⟩ := (ih (i + 1) _ _).mp he
        exact ⟨s', List.mem_cons_of_mem s hs', hnone⟩
      · rintro ⟨s', hs', hnone⟩
        rcases List.mem_cons.mp hs' with rfl | hmem
        · rw [h] at hnone; cases hnone
        · exact (ih (i + 1) _ _).mpr ⟨s', hmem, hnone⟩

theorem stepRecord_refine_isSome (agents : List Agent) (ag : Agent) (task : String)
    (outs : List GenResult) (i : Nat) (s : Step) :
    (stepRecord agents ag task outs i s).refine.isSome =
      (refineActions.contains (stepRecord agents ag task outs i s).action &&
        decide ((stepRecord agents ag task outs i s).raw.confidence <
          CONFIDENCE_THRESHOLD)) := by
  simp only [stepRecord, stepRun]
  cases hc : (refineActions.contains s.action &&
      decide ((stepRaw ag task outs i s).confidence < CONFIDENCE_THRESHOLD)) <;>
    simp [hc]

theorem execSteps_recs (agents : List Agent) (task : String) :
    ∀ (steps : List Step) (i : Nat) (outs : List GenResult) (recs : List StepRec)
      (outs' : List GenResult) (recs' : List StepRec),
    execSteps agents task steps i outs recs = .ok (outs', recs') →
    ∃ newRecs, recs' = recs ++ newRecs ∧ newRecs.length = steps.length ∧
      ∀ rec ∈ newRecs, rec.refine.isSome =
        (refineActions.contains rec.action &&
          decide (rec.raw.confidence < CONFIDENCE_THRESHOLD)) := by
  intro steps
  induction steps with
  | nil =>
    intro i outs recs outs' recs' h
    rw [execSteps_nil] at h
    obtain ⟨h1, h2⟩ := Prod.mk.injEq .. ▸ (Except.ok.injEq .. ▸ h :)
    refine ⟨[], ?_, rfl, by simp⟩
    simp [← h2]
  | cons s rest ih =>
    intro i outs recs outs' recs' h
    cases hag : lookupAgent agents s.agent with
    | none =>
      rw [execSteps_cons_unknown agents task s rest i outs recs hag] at h
      cases h
    | some ag =>
      rw [execSteps_cons_known agents task s rest i outs recs ag hag] at h
      obtain ⟨newRecs, hrecs, hlen, hprop⟩ := ih (i + 1) _ _ outs' recs' h
      refine ⟨stepRecord agents ag task outs i s :: newRecs, ?_, by simp [hlen], ?_⟩
      · rw [hrecs, List.append_assoc]
        rfl
      · intro rec hrec
        rcases List.mem_cons.mp hrec with rfl | hmem
        · exact stepRecord_refine_isSome agents ag task outs i s
        · exact hprop rec hmem

/-! ## Claim theorems: plan execution -/

/-- C2 (amended): `execute_plan` raises an error (`ValueError`, surfaced to the
caller) exactly when some step references an agent name absent from the pool;
a `StepRef` pointing at a step index that has not yet executed does NOT fail —
the step's input silently resolves to the empty string and the run
continues. -/
theorem execute_plan_error_conditions (plan : Plan) (agents : List Agent)
    (task : String) :
    ((∃ s ∈ plan.steps, lookupAgent agents s.agent = none) ↔
      ∃ e, execute_plan plan agents task = .error e) ∧
    (∀ (outs : List GenResult) (i n : Nat), outs.length ≤ n →
      resolveInput task outs i (.stepIndex n) = "") := by
  constructor
  · rw [← execSteps_error_iff agents task plan.steps 0 [] []]
    cases hx : execSteps agents task plan.steps 0 [] [] with
    | error e =>
      simp only [execute_plan, hx]
      exact ⟨fun _ => ⟨e, rfl⟩, fun _ => ⟨e, rfl⟩⟩
    | ok pr =>
      rcases pr with ⟨outs, recs⟩
      simp only [execute_plan, hx]
      constructor
      · rintro ⟨e, he⟩
        cases he
      · rintro ⟨e, he⟩
        cases he
  · intro outs i n hlen
    simp [resolveInput, List.getElem?_eq_none hlen]

/-- C2 witness: a plan whose only step names the agent `Ghost`, absent from a
pool holding only `Planner`, makes the run fail; and a reference to the
not-yet-executed step 5 resolves to the empty string. -/
theorem execute_plan_error_witness :
    (∃ e, execute_plan c2ghostPlan [plannerAgent] "t" = .error e) ∧
    resolveInput "t" [] 0 (.stepIndex 5) = "" := by
  have h := execute_plan_error_conditions c2ghostPlan [plannerAgent] "t"
  refine ⟨h.1.mp ⟨⟨"Ghost", "plan", .taskDescription⟩, ?_, rfl⟩, h.2 [] 0 5 (by decide)⟩
  rw [show c2ghostPlan.steps = [⟨"Ghost", "plan", .taskDescription⟩] from rfl]
  exact List.mem_cons_self _ _

/-- C2 counterexample: a plan whose only step's input references step index 5 —
which has not executed — runs to completion and returns a trajectory (the
dangling reference resolves to the empty input), instead of failing with an
`InvalidStepReferenceError` as the claim states. -/
theorem c2_counterexample :
    c2plan.steps.map Step.input = [.stepIndex 5] ∧
    execute_plan c2plan [plannerAgent] "t" =
      .ok ⟨"the plan", [⟨"Planner", "custom", ⟨"the plan", mkRat 1 2, "ok"⟩, none,
        ⟨"the plan", mkRat 1 2, "ok"⟩⟩]⟩ :=
  ⟨rfl, rfl⟩

/-- C3: for every plan that executes successfully, the trajectory records
exactly one step output per plan step, and the refinement sub-loop is invoked
on a step if and only if the step's action is one of {execute, code, improve}
AND the step's raw confidence is strictly below `CONFIDENCE_THRESHOLD`; in
particular, on Scenario A (plan → execute with confidence 0.9) no refinement
is invoked and exactly 2 step outputs are recorded. -/
theorem refinement_trigger_iff (plan : Plan) (agents : List Agent) (task : String)
    (r : ExecResult) (h : execute_plan plan agents task = .ok r) :
    r.steps.length = plan.steps.length ∧
    (∀ rec ∈ r.steps, rec.refine.isSome =
      (refineActions.contains rec.action &&
        decide (rec.raw.confidence < CONFIDENCE_THRESHOLD))) ∧
    execute_plan scenPlan scenAgents "task" = .ok scenResult ∧
    scenResult.steps.length = 2 ∧
    (∀ rec ∈ scenResult.steps, rec.refine = none) := by
  have hmain : r.steps.length = plan.steps.length ∧
      (∀ rec ∈ r.steps, rec.refine.isSome =
        (refineActions.contains rec.action &&
          decide (rec.raw.confidence < CONFIDENCE_THRESHOLD))) := by
    cases hx : execSteps agents task plan.steps 0 [] [] with
    | error e => rw [execute_plan, hx] at h; cases h
    | ok pr =>
      rcases pr with ⟨outs, recs⟩
      rw [execute_plan, hx] at h
      obtain ⟨newRecs, hrecs, hlen, hprop⟩ :=
        execSteps_recs agents task plan.steps 0 [] [] outs recs hx
      have hsteps : r.steps = recs := by
        cases h
        rfl
      rw [hsteps, hrecs]
      simp only [List.nil_append]
      exact ⟨hlen, hprop⟩
  exact ⟨hmain.1, hmain.2, rfl, rfl, by decide⟩

/-- C3 witness: the general theorem applied to Scenario A — two recorded step
outputs and no refinement triggered on either step. -/
theorem refinement_trigger_witness :
    scenResult.steps.length = scenPlan.steps.length ∧
    (∀ rec ∈ scenResult.steps, rec.refine.isSome =
      (refineActions.contains rec.action &&
        decide (rec.raw.confidence < CONFIDENCE_THRESHOLD))) := by
  have h := refinement_trigger_iff scenPlan scenAgents "task" scenResult rfl
  exact ⟨h.1, h.2.1⟩

/-! ## Lemmas about the knowledge-graph operations -/

theorem key_find?_eq_of_any_false (nid : String) :
    ∀ l : List (String × NodeData), l.any (fun p => p.1 == nid) = false →
    l.find? (fun p => p.1 == nid) = none := by
  intro l h
  rw [List.find?_eq_none]
  intro x hx
  rw [List.any_eq_false] at h
  simp [h x hx]

theorem getNode_eq_none_of_hasNode_false (g : Graph) (nid : String)
    (h : hasNode g nid = false) : getNode g nid = none := by
  rw [getNode, key_find?_eq_of_any_false nid g.nodes h]
  rfl

theorem hasNode_true_of_getNode_some (g : Graph) (nid : String) (d : NodeData)
    (h : getNode g nid = some d) : hasNode g nid = true := by
  by_contra hfalse
  rw [Bool.not_eq_true] at hfalse
  rw [getNode_eq_none_of_hasNode_false g nid hfalse] at h
  cases h

theorem find?_of_getNode_some (g : Graph) (nid : String) (d : NodeData)
    (h : getNode g nid = some d) :
    g.nodes.find? (fun p => p.1 == nid) = some (nid, d) := by
  rw [getNode] at h
  cases hf : g.nodes.find? (fun p => p.1 == nid) with
  | none => rw [hf] at h; cases h
  | some q =>
    rw [hf] at h
    have hq2 : q.2 = d := by simpa using h
    have hqb := List.find?_some hf
    have hq1 : q.1 = nid := eq_of_beq (by simpa using hqb)
    exact congrArg some (Prod.ext hq1 hq2)

theorem find?_map_replace_self (nid : String) (d : NodeData) :
    ∀ l : List (String × NodeData), l.any (fun p => p.1 == nid) = true →
    (l.map (fun p => if p.1 == nid then (nid, d) else p)).find?
      (fun p => p.1 == nid) = some (nid, d) := by
  intro l
  induction l with
  | nil => intro h; cases h
  | cons a t ih =>
    intro h
    simp only [List.map_cons]
    cases ha : (a.1 == nid) with
    | true =>
      rw [if_pos rfl]
      rw [List.find?_cons_of_pos _ (by simp)]
    | false =>
      rw [if_neg (by simp)]
      rw [List.find?_cons_of_neg _ (by simp [ha])]
      apply ih
      rw [List.any_cons, ha, Bool.false_or] at h
      exact h

theorem find?_map_replace_ne (nid nid' : String) (d : NodeData)
    (hne : (nid == nid') = false) :
    ∀ l : List (String × NodeData),
    (l.map (fun p => if p.1 == nid then (nid, d) else p)).find?
      (fun p => p.1 == nid') = l.find? (fun p => p.1 == nid') := by
  intro l
  induction l with
  | nil => rfl
  | cons a t ih =>
    simp only [List.map_cons]
    cases ha : (a.1 == nid) with
    | true =>
      have ha1 : a.1 = nid := eq_of_beq ha
      rw [if_pos rfl]
      rw [List.find?_cons_of_neg _ (by simp [hne]),
        List.find?_cons_of_neg _ (by simp [ha1, hne]), ih]
    | false =>
      rw [if_neg (by simp)]
      cases ha' : (a.1 == nid') with
      | true =>
        rw [List.find?_cons_of_pos _ (by simp [ha']),
          List.find?_cons_of_pos _ (by simp [ha'])]
      | false =>
        rw [List.find?_cons_of_neg _ (by simp [ha']),
          List.find?_cons_of_neg _ (by simp [ha']), ih]

theorem getNode_mk (nodes : List (String × NodeData)) (edges : List (String × String))
    (nid : String) :
    getNode ⟨nodes, edges⟩ nid = (nodes.find? (fun p => p.1 == nid)).map Prod.snd := rfl

theorem getNode_setNode_self (g : Graph) (nid : String) (d : NodeData) :
    getNode (setNode g nid d) nid = some d := by
  rw [setNode]
  cases hh : hasNode g nid with
  | true =>
    rw [if_pos rfl, getNode_mk, find?_map_replace_self nid d g.nodes hh]
    rfl
  | false =>
    rw [if_neg (by simp), getNode_mk, List.find?_append,
      key_find?_eq_of_any_false nid g.nodes hh, Option.none_or,
      List.find?_cons_of_pos _ (by simp)]
    rfl

theorem getNode_setNode_ne (g : Graph) (nid nid' : String) (d : NodeData)
    (hne : nid' ≠ nid) : getNode (setNode g nid d) nid' = getNode g nid' := by
  have hb : (nid == nid') = false := by
    rw [beq_eq_false_iff_ne]
    exact fun h => hne h.symm
  rw [setNode]
  cases hh : hasNode g nid with
  | true =>
    rw [if_pos rfl, getNode_mk, find?_map_replace_ne nid nid' d hb]
    rfl
  | false =>
    rw [if_neg (by simp), getNode_mk, List.find?_append]
    have hnone : List.find? (fun p => p.1 == nid') [(nid, d)] = none := by
      rw [List.find?_eq_none]
      intro x hx
      rw [List.mem_singleton] at hx
      subst hx
      simp [hb]
    rw [hnone, getNode]
    cases g.nodes.find? (fun p => p.1 == nid') <;> rfl

theorem eq_of_fst_eq_of_nodupKeys :
    ∀ l : List (String × NodeData), (l.map Prod.fst).Nodup →
    ∀ a ∈ l, ∀ b ∈ l, a.1 = b.1 → a = b := by
  intro l
  induction l with
  | nil => intro _ a ha; cases ha
  | cons h t ih =>
    intro hnd a ha b hb hab
    rw [List.map_cons, List.nodup_cons] at hnd
    rcases List.mem_cons.mp ha with rfl | hat
    · rcases List.mem_cons.mp hb with rfl | hbt
      · rfl
      · exact absurd (hab ▸ List.mem_map_of_mem Prod.fst hbt) hnd.1
    · rcases List.mem_cons.mp hb with rfl | hbt
      · exact absurd (hab ▸ List.mem_map_of_mem Prod.fst hat) hnd.1
      · exact ih hnd.2 a hat b hbt hab

theorem map_replace_eq_self (nid : String) (d : NodeData) :
    ∀ l : List (String × NodeData), (∀ p ∈ l, p.1 = nid → p = (nid, d)) →
    l.map (fun p => if p.1 == nid then (nid, d) else p) = l := by
  intro l
  induction l with
  | nil => intro _; rfl
  | cons a t ih =>
    intro h
    rw [List.map_cons]
    cases ha : (a.1 == nid) with
    | true =>
      have ha2 := h a (List.mem_cons_self a t) (eq_of_beq ha)
      rw [if_pos rfl, ih (fun p hp hpe => h p (List.mem_cons_of_mem a hp) hpe), ← ha2]
    | false =>
      rw [if_neg (by simp), ih (fun p hp hpe => h p (List.mem_cons_of_mem a hp) hpe)]

theorem setNode_eq_self (g : Graph) (nid : String) (d : NodeData)
    (hnd : (g.nodes.map Prod.fst).Nodup) (h : getNode g nid = some d) :
    setNode g nid d = g := by
  have hfind := find?_of_getNode_some g nid d h
  have hmem := List.mem_of_find?_eq_some hfind
  rw [setNode, if_pos (hasNode_true_of_getNode_some g nid d h)]
  have hrepl : g.nodes.map (fun p => if p.1 == nid then (nid, d) else p) = g.nodes := by
    apply map_replace_eq_self
    intro p hp hpe
    exact eq_of_fst_eq_of_nodupKeys g.nodes hnd p hp (nid, d) hmem hpe
  rw [hrepl]

theorem ensureNode_of_hasNode (g : Graph) (x : String) (h : hasNode g x = true) :
    ensureNode g x = g := by
  rw [ensureNode, if_pos h]

theorem ensureNode_edges (g : Graph) (x : String) :
    (ensureNode g x).edges = g.edges := by
  rw [ensureNode]
  split <;> rfl

theorem getNode_ensureNode_of_some (g : Graph) (x nid : String) (d : NodeData)
    (h : getNode g nid = some d) : getNode (ensureNode g x) nid = some d := by
  rw [ensureNode]
  cases hh : hasNode g x with
  | true => rw [if_pos rfl]; exact h
  | false =>
    rw [if_neg (by simp), getNode_mk, List.find?_append, find?_of_getNode_some g nid d h]
    rfl

theorem getNode_ensureNode_inv (g : Graph) (x nid : String) (d : NodeData)
    (h : getNode (ensureNode g x) nid = some d) :
    getNode g nid = some d ∨ d = .bare := by
  rw [ensureNode] at h
  cases hh : hasNode g x with
  | true =>
    rw [hh, if_pos rfl] at h
    exact Or.inl h
  | false =>
    rw [hh, if_neg (by simp), getNode_mk, List.find?_append] at h
    cases hf : g.nodes.find? (fun p => p.1 == nid) with
    | some q =>
      rw [hf] at h
      left
      rw [getNode, hf]
      simpa using h
    | none =>
      rw [hf, Option.none_or] at h
      cases hx : (x == nid) with
      | true =>
        rw [List.find?_cons_of_pos _ (by simpa using hx)] at h
        right
        have hd : ((x, NodeData.bare) : String × NodeData).2 = d := by simpa using h
        exact hd.symm
      | false =>
        rw [List.find?_cons_of_neg _ (by simpa using hx)] at h
        cases h

theorem addEdge_nodes (g : Graph) (u v : String) :
    (addEdge g u v).nodes = (ensureNode (ensureNode g u) v).nodes := by
  simp only [addEdge]
  split <;> rfl

theorem getNode_addEdge_of_some (g : Graph) (u v nid : String) (d : NodeData)
    (h : getNode g nid = some d) : getNode (addEdge g u v) nid = some d := by
  have h2 := getNode_ensureNode_of_some (ensureNode g u) v nid d
    (getNode_ensureNode_of_some g u nid d h)
  rw [getNode, addEdge_nodes, ← getNode]
  exact h2

theorem getNode_addEdge_inv (g : Graph) (u v nid : String) (d : NodeData)
    (h : getNode (addEdge g u v) nid = some d) :
    getNode g nid = some d ∨ d = .bare := by
  rw [getNode, addEdge_nodes, ← getNode] at h
  rcases getNode_ensureNode_inv (ensureNode g u) v nid d h with h1 | h1
  · exact getNode_ensureNode_inv g u nid d h1
  · exact Or.inr h1

theorem addEdge_contains_self (g : Graph) (u v : String) :
    (addEdge g u v).edges.contains (u, v) = true := by
  simp only [addEdge]
  cases hc : (ensureNode (ensureNode g u) v).edges.contains (u, v) with
  | true => rw [if_pos rfl]; exact hc
  | false =>
    rw [if_neg (by simp)]
    simp

theorem addEdge_contains_mono (g : Graph) (u v : String) (e : String × String)
    (h : g.edges.contains e = true) : (addEdge g u v).edges.contains e = true := by
  have hens : (ensureNode (ensureNode g u) v).edges = g.edges := by
    rw [ensureNode_edges, ensureNode_edges]
  simp only [addEdge]
  cases hc : (ensureNode (ensureNode g u) v).edges.contains (u, v) with
  | true =>
    rw [if_pos rfl, hens]
    exact h
  | false =>
    rw [if_neg (by simp)]
    have hm : e ∈ g.edges := by simpa using h
    simp [hens, List.mem_append, hm]

theorem addEdge_edges_mk (g : Graph) (u v : String) :
    (addEdge g u v).edges = g.edges ∨ (addEdge g u v).edges = g.edges ++ [(u, v)] := by
  have hens : (ensureNode (ensureNode g u) v).edges = g.edges := by
    rw [ensureNode_edges, ensureNode_edges]
  simp only [addEdge]
  split
  · exact Or.inl hens
  · right
    rw [show ({ ensureNode (ensureNode g u) v with
        edges := (ensureNode (ensureNode g u) v).edges ++ [(u, v)] } : Graph).edges
      = (ensureNode (ensureNode g u) v).edges ++ [(u, v)] from rfl, hens]

theorem setNode_edges (g : Graph) (nid : String) (d : NodeData) :
    (setNode g nid d).edges = g.edges := by
  rw [setNode]
  split <;> rfl

theorem addEdge_eq_self (g : Graph) (u v : String) (hu : hasNode g u = true)
    (hv : hasNode g v = true) (he : g.edges.contains (u, v) = true) :
    addEdge g u v = g := by
  simp only [addEdge]
  rw [ensureNode_of_hasNode g u hu, ensureNode_of_hasNode g v hv, if_pos he]

theorem keys_map_replace (nid : String) (d : NodeData) :
    ∀ l : List (String × NodeData),
    (l.map (fun p => if p.1 == nid then (nid, d) else p)).map Prod.fst =
      l.map Prod.fst := by
  intro l
  induction l with
  | nil => rfl
  | cons a t ih =>
    simp only [List.map_cons]
    cases ha : (a.1 == nid) with
    | true =>
      rw [if_pos rfl, ih]
      simp [(eq_of_beq ha).symm]
    | false =>
      rw [if_neg (by simp), ih]

theorem keys_setNode_of_present (g : Graph) (nid : String) (d : NodeData)
    (h : hasNode g nid = true) :
    (setNode g nid d).nodes.map Prod.fst = g.nodes.map Prod.fst := by
  rw [setNode, if_pos h]
  exact keys_map_replace nid d g.nodes

theorem hasNode_mk (nodes : List (String × NodeData)) (edges : List (String × String))
    (x : String) : hasNode ⟨nodes, edges⟩ x = nodes.any (fun p => p.1 == x) := rfl

theorem any_key_map_replace (nid : String) (d : NodeData) (x : String) :
    ∀ l : List (String × NodeData),
    (l.map (fun p => if p.1 == nid then (nid, d) else p)).any (fun p => p.1 == x) =
      l.any (fun p => p.1 == x) := by
  intro l
  induction l with
  | nil => rfl
  | cons a t ih =>
    simp only [List.map_cons, List.any_cons]
    cases ha : (a.1 == nid) with
    | true =>
      rw [if_pos rfl, ih]
      simp [(eq_of_beq ha).symm]
    | false =>
      rw [if_neg (by simp), ih]

theorem hasNode_setNode_of_present (g : Graph) (nid x : String) (d : NodeData)
    (h : hasNode g nid = true) :
    hasNode (setNode g nid d) x = hasNode g x := by
  rw [setNode, if_pos h, hasNode_mk, any_key_map_replace nid d x g.nodes, hasNode]

theorem setNode_length_of_present (g : Graph) (nid : String) (d : NodeData)
    (h : hasNode g nid = true) :
    (setNode g nid d).nodes.length = g.nodes.length := by
  rw [setNode, if_pos h]
  exact List.length_map _ _

/-! ## Lemmas about the failure-with-lessons write -/

theorem foldl_addEdge_getNode_of_some (hid : String) (nid : String) (d : NodeData) :
    ∀ (cs : List String) (g : Graph), getNode g nid = some d →
    getNode (cs.foldl (fun gg c => addEdge gg (conceptId c) hid) g) nid = some d := by
  intro cs
  induction cs with
  | nil => intro g h; exact h
  | cons c t ih =>
    intro g h
    exact ih _ (getNode_addEdge_of_some g (conceptId c) hid nid d h)

theorem foldl_addEdge_getNode_inv (hid : String) (nid : String) (d : NodeData) :
    ∀ (cs : List String) (g : Graph),
    getNode (cs.foldl (fun gg c => addEdge gg (conceptId c) hid) g) nid = some d →
    getNode g nid = some d ∨ d = .bare := by
  intro cs
  induction cs with
  | nil => intro g h; exact Or.inl h
  | cons c t ih =>
    intro g h
    rcases ih _ h with h1 | h1
    · exact getNode_addEdge_inv g (conceptId c) hid nid d h1
    · exact Or.inr h1

theorem foldl_addEdge_contains_mono (hid : String) (e : String × String) :
    ∀ (cs : List String) (g : Graph), g.edges.contains e = true →
    (cs.foldl (fun gg c => addEdge gg (conceptId c) hid) g).edges.contains e = true := by
  intro cs
  induction cs with
  | nil => intro g h; exact h
  | cons c t ih =>
    intro g h
    exact ih _ (addEdge_contains_mono g (conceptId c) hid e h)

theorem foldl_addEdge_contains_of_mem (hid : String) :
    ∀ (cs : List String) (g : Graph) (c : String), c ∈ cs →
    (cs.foldl (fun gg c => addEdge gg (conceptId c) hid) g).edges.contains
      (conceptId c, hid) = true := by
  intro cs
  induction cs with
  | nil => intro g c h; cases h
  | cons c0 t ih =>
    intro g c h
    rcases List.mem_cons.mp h with rfl | hmem
    · exact foldl_addEdge_contains_mono hid (conceptId c, hid) t _
        (addEdge_contains_self g (conceptId c) hid)
    · exact ih _ c hmem

theorem foldl_addEdge_edges_inv (hid : String) :
    ∀ (cs : List String) (g : Graph) (e : String × String),
    e ∈ (cs.foldl (fun gg c => addEdge gg (conceptId c) hid) g).edges →
    e ∈ g.edges ∨ e.2 = hid := by
  intro cs
  induction cs with
  | nil => intro g e h; exact Or.inl h
  | cons c t ih =>
    intro g e h
    rcases ih _ e h with h1 | h1
    · rcases addEdge_edges_mk g (conceptId c) hid with he | he
      · rw [he] at h1; exact Or.inl h1
      · rw [he] at h1
        rcases List.mem_append.mp h1 with h2 | h2
        · exact Or.inl h2
        · right
          rw [List.mem_singleton] at h2
          rw [h2]
    · exact Or.inr h1

theorem addEdge_edges_inv (g : Graph) (u v : String) (e : String × String)
    (h : e ∈ (addEdge g u v).edges) : e ∈ g.edges ∨ e = (u, v) := by
  rcases addEdge_edges_mk g u v with he | he
  · rw [he] at h; exact Or.inl h
  · rw [he] at h
    rcases List.mem_append.mp h with h2 | h2
    · exact Or.inl h2
    · right
      rwa [List.mem_singleton] at h2

/-- `processTakeaway` on a blank string is a no-op. -/
theorem processTakeaway_blank (pt : String) (cs : List String) (g : Graph)
    (t : String) (h : isBlank t = true) : processTakeaway pt cs g t = .ok g := by
  rw [processTakeaway, if_pos h]

/-- `processTakeaway` on a fresh non-blank takeaway: the node is created with
counters `(0, 1)` and linked from the problem node and every concept node. -/
theorem processTakeaway_new (pt : String) (cs : List String) (g : Graph)
    (t : String) (ht : isBlank t = false) (hnew : hasNode g (heuristicId t) = false) :
    ∃ g', processTakeaway pt cs g t = .ok g' ∧
      getNode g' (heuristicId t) = some (.heuristicData t 0 1) ∧
      g'.edges.contains (problemId pt, heuristicId t) = true ∧
      ∀ c ∈ cs, g'.edges.contains (conceptId c, heuristicId t) = true := by
  have hg' : processTakeaway pt cs g t =
      .ok (cs.foldl (fun gg c => addEdge gg (conceptId c) (heuristicId t))
        (addEdge (setNode g (heuristicId t) (.heuristicData t 0 1))
          (problemId pt) (heuristicId t))) := by
    rw [processTakeaway, if_neg (by simp [ht])]
    simp only [hnew]
    rfl
  refine ⟨_, hg', ?_, ?_, ?_⟩
  · exact foldl_addEdge_getNode_of_some (heuristicId t) (heuristicId t) _ cs _
      (getNode_addEdge_of_some _ _ _ _ _ (getNode_setNode_self g (heuristicId t) _))
  · exact foldl_addEdge_contains_mono (heuristicId t) _ cs _
      (addEdge_contains_self _ (problemId pt) (heuristicId t))
  · intro c hc
    exact foldl_addEdge_contains_of_mem (heuristicId t) cs _ c hc

/-- `processTakeaway` on a non-blank takeaway whose heuristic node already
exists: `negative_count` is incremented by exactly one, `text` and
`positive_count` are untouched, and the links are (re-)added. -/
theorem processTakeaway_existing (pt : String) (cs : List String) (g : Graph)
    (t tx : String) (p n : Int) (ht : isBlank t = false)
    (hex : getNode g (heuristicId t) = some (.heuristicData tx p n)) :
    ∃ g', processTakeaway pt cs g t = .ok g' ∧
      getNode g' (heuristicId t) = some (.heuristicData tx p (n + 1)) ∧
      g'.edges.contains (problemId pt, heuristicId t) = true ∧
      ∀ c ∈ cs, g'.edges.contains (conceptId c, heuristicId t) = true := by
  have hg' : processTakeaway pt cs g t =
      .ok (cs.foldl (fun gg c => addEdge gg (conceptId c) (heuristicId t))
        (addEdge (setNode g (heuristicId t) (.heuristicData tx p (n + 1)))
          (problemId pt) (heuristicId t))) := by
    rw [processTakeaway, if_neg (by simp [ht])]
    simp only [hasNode_true_of_getNode_some g (heuristicId t) _ hex, hex]
    rfl
  refine ⟨_, hg', ?_, ?_, ?_⟩
  · exact foldl_addEdge_getNode_of_some (heuristicId t) (heuristicId t) _ cs _
      (getNode_addEdge_of_some _ _ _ _ _ (getNode_setNode_self g (heuristicId t) _))
  · exact foldl_addEdge_contains_mono (heuristicId t) _ cs _
      (addEdge_contains_self _ (problemId pt) (heuristicId t))
  · intro c hc
    exact foldl_addEdge_contains_of_mem (heuristicId t) cs _ c hc

theorem getNode_some_of_hasNode (g : Graph) (nid : String)
    (h : hasNode g nid = true) : ∃ d, getNode g nid = some d := by
  cases hf : g.nodes.find? (fun p => p.1 == nid) with
  | some q => exact ⟨q.2, by rw [getNode, hf]; rfl⟩
  | none =>
    rw [List.find?_eq_none] at hf
    rw [hasNode, List.any_eq_true] at h
    obtain ⟨x, hx, hpx⟩ := h
    exact absurd hpx (hf x hx)

theorem processTakeaway_eq_new (pt : String) (cs : List String) (g : Graph)
    (t : String) (ht : isBlank t = false) (hnew : hasNode g (heuristicId t) = false) :
    processTakeaway pt cs g t =
      .ok (cs.foldl (fun gg c => addEdge gg (conceptId c) (heuristicId t))
        (addEdge (setNode g (heuristicId t) (.heuristicData t 0 1))
          (problemId pt) (heuristicId t))) := by
  rw [processTakeaway, if_neg (by simp [ht])]
  simp only [hnew]
  rfl

theorem processTakeaway_eq_existing (pt : String) (cs : List String) (g : Graph)
    (t tx : String) (p n : Int) (ht : isBlank t = false)
    (hex : getNode g (heuristicId t) = some (.heuristicData tx p n)) :
    processTakeaway pt cs g t =
      .ok (cs.foldl (fun gg c => addEdge gg (conceptId c) (heuristicId t))
        (addEdge (setNode g (heuristicId t) (.heuristicData tx p (n + 1)))
          (problemId pt) (heuristicId t))) := by
  rw [processTakeaway, if_neg (by simp [ht])]
  simp only [hasNode_true_of_getNode_some g (heuristicId t) _ hex, hex]
  rfl

theorem preservesKnowledge_refl (g : Graph) : preservesKnowledge g g :=
  ⟨fun _ _ => Iff.rfl, fun nid s p n h => ⟨n, h, le_refl n⟩⟩

theorem preservesKnowledge_trans {g1 g2 g3 : Graph}
    (h12 : preservesKnowledge g1 g2) (h23 : preservesKnowledge g2 g3) :
    preservesKnowledge g1 g3 := by
  constructor
  · intro nid q
    exact (h23.1 nid q).trans (h12.1 nid q)
  · intro nid s p n h
    obtain ⟨m, hm, hnm⟩ := h12.2 nid s p n h
    obtain ⟨m2, hm2, hmm2⟩ := h23.2 nid s p m hm
    exact ⟨m2, hm2, le_trans hnm hmm2⟩

theorem preservesKnowledge_addEdge (g : Graph) (u v : String) :
    preservesKnowledge g (addEdge g u v) := by
  constructor
  · intro nid q
    constructor
    · intro h
      rcases getNode_addEdge_inv g u v nid _ h with h1 | h1
      · exact h1
      · cases h1
    · exact getNode_addEdge_of_some g u v nid _
  · intro nid s p n h
    exact ⟨n, getNode_addEdge_of_some g u v nid _ h, le_refl n⟩

theorem preservesKnowledge_foldl_addEdge (hid : String) :
    ∀ (cs : List String) (g : Graph),
    preservesKnowledge g (cs.foldl (fun gg c => addEdge gg (conceptId c) hid) g) := by
  intro cs
  induction cs with
  | nil => intro g; exact preservesKnowledge_refl g
  | cons c t ih =>
    intro g
    exact preservesKnowledge_trans (preservesKnowledge_addEdge g (conceptId c) hid)
      (ih (addEdge g (conceptId c) hid))

theorem preservesKnowledge_setNode_new (g : Graph) (hid t : String)
    (hnew : hasNode g hid = false) :
    preservesKnowledge g (setNode g hid (.heuristicData t 0 1)) := by
  have hnone := getNode_eq_none_of_hasNode_false g hid hnew
  constructor
  · intro nid q
    by_cases he : nid = hid
    · subst he
      rw [getNode_setNode_self, hnone]
      constructor
      · intro h; simp at h
      · intro h; simp at h
    · rw [getNode_setNode_ne g hid nid _ he]
  · intro nid s p n h
    have hne : nid ≠ hid := by
      rintro rfl
      rw [hnone] at h
      cases h
    rw [getNode_setNode_ne g hid nid _ hne]
    exact ⟨n, h, le_refl n⟩

theorem preservesKnowledge_setNode_inc (g : Graph) (hid tx : String) (p n : Int)
    (hex : getNode g hid = some (.heuristicData tx p n)) :
    preservesKnowledge g (setNode g hid (.heuristicData tx p (n + 1))) := by
  constructor
  · intro nid q
    by_cases he : nid = hid
    · subst he
      rw [getNode_setNode_self, hex]
      constructor
      · intro h; simp at h
      · intro h; simp at h
    · rw [getNode_setNode_ne g hid nid _ he]
  · intro nid s p' n' h
    by_cases he : nid = hid
    · subst he
      rw [hex] at h
      obtain ⟨hs, hp, hn⟩ : tx = s ∧ p = p' ∧ n = n' := by
        simpa using h
      subst hs; subst hp; subst hn
      rw [getNode_setNode_self]
      exact ⟨n + 1, rfl, by omega⟩
    · rw [getNode_setNode_ne g hid nid _ he]
      exact ⟨n', h, le_refl n'⟩

theorem processTakeaway_preserves (pt : String) (cs : List String) (g : Graph)
    (t : String) (g' : Graph) (h : processTakeaway pt cs g t = .ok g') :
    preservesKnowledge g g' := by
  cases hb : isBlank t with
  | true =>
    rw [processTakeaway_blank pt cs g t hb] at h
    injection h with h2
    subst h2
    exact preservesKnowledge_refl g
  | false =>
    cases hn : hasNode g (heuristicId t) with
    | false =>
      rw [processTakeaway_eq_new pt cs g t hb hn] at h
      injection h with h2
      subst h2
      exact preservesKnowledge_trans
        (preservesKnowledge_trans (preservesKnowledge_setNode_new g (heuristicId t) t hn)
          (preservesKnowledge_addEdge _ (problemId pt) (heuristicId t)))
        (preservesKnowledge_foldl_addEdge (heuristicId t) cs _)
    | true =>
      obtain ⟨d, hd⟩ := getNode_some_of_hasNode g (heuristicId t) hn
      cases d with
      | heuristicData tx p n =>
        rw [processTakeaway_eq_existing pt cs g t tx p n hb hd] at h
        injection h with h2
        subst h2
        exact preservesKnowledge_trans
          (preservesKnowledge_trans (preservesKnowledge_setNode_inc g (heuristicId t) tx p n hd)
            (preservesKnowledge_addEdge _ (problemId pt) (heuristicId t)))
          (preservesKnowledge_foldl_addEdge (heuristicId t) cs _)
      | patternData q =>
        rw [processTakeaway, if_neg (by simp [hb])] at h
        simp [hasNode_true_of_getNode_some g (heuristicId t) _ hd, hd] at h
      | bare =>
        rw [processTakeaway, if_neg (by simp [hb])] at h
        simp [hasNode_true_of_getNode_some g (heuristicId t) _ hd, hd] at h

theorem processTakeaway_edges_inv (pt : String) (cs : List String) (g : Graph)
    (t : String) (g' : Graph) (h : processTakeaway pt cs g t = .ok g') :
    ∀ e ∈ g'.edges, e ∈ g.edges ∨ e.2 = heuristicId t := by
  cases hb : isBlank t with
  | true =>
    rw [processTakeaway_blank pt cs g t hb] at h
    injection h with h2
    subst h2
    exact fun e he => Or.inl he
  | false =>
    have main : ∀ (d : NodeData),
        g' = cs.foldl (fun gg c => addEdge gg (conceptId c) (heuristicId t))
          (addEdge (setNode g (heuristicId t) d) (problemId pt) (heuristicId t)) →
        ∀ e ∈ g'.edges, e ∈ g.edges ∨ e.2 = heuristicId t := by
      rintro d rfl e he
      rcases foldl_addEdge_edges_inv (heuristicId t) cs _ e he with h1 | h1
      · rcases addEdge_edges_inv _ (problemId pt) (heuristicId t) e h1 with h2 | h2
        · rw [setNode_edges] at h2
          exact Or.inl h2
        · right
          rw [h2]
      · exact Or.inr h1
    cases hn : hasNode g (heuristicId t) with
    | false =>
      rw [processTakeaway_eq_new pt cs g t hb hn] at h
      injection h with h2
      exact main _ h2.symm
    | true =>
      obtain ⟨d, hd⟩ := getNode_some_of_hasNode g (heuristicId t) hn
      cases d with
      | heuristicData tx p n =>
        rw [processTakeaway_eq_existing pt cs g t tx p n hb hd] at h
        injection h with h2
        exact main _ h2.symm
      | patternData q =>
        rw [processTakeaway, if_neg (by simp [hb])] at h
        simp [hasNode_true_of_getNode_some g (heuristicId t) _ hd, hd] at h
      | bare =>
        rw [processTakeaway, if_neg (by simp [hb])] at h
        simp [hasNode_true_of_getNode_some g (heuristicId t) _ hd, hd] at h

theorem foldlM_processTakeaway_preserves (pt : String) (cs : List String) :
    ∀ (ts : List String) (g g' : Graph),
    ts.foldlM (processTakeaway pt cs) g = .ok g' → preservesKnowledge g g' := by
  intro ts
  induction ts with
  | nil =>
    intro g g' h
    have h2 : (Except.ok g : Except String Graph) = .ok g' := h
    injection h2 with h3
    subst h3
    exact preservesKnowledge_refl g
  | cons t rest ih =>
    intro g g' h
    rw [List.foldlM_cons] at h
    cases hp : processTakeaway pt cs g t with
    | error e =>
      rw [hp] at h
      have h2 : (Except.error e : Except String Graph) = .ok g' := h
      cases h2
    | ok g1 =>
      rw [hp] at h
      have h2 : rest.foldlM (processTakeaway pt cs) g1 = .ok g' := h
      exact preservesKnowledge_trans (processTakeaway_preserves pt cs g t g1 hp)
        (ih g1 g' h2)

theorem foldlM_processTakeaway_edges_inv (pt : String) (cs : List String) :
    ∀ (ts : List String) (g g' : Graph),
    ts.foldlM (processTakeaway pt cs) g = .ok g' →
    ∀ e ∈ g'.edges, e ∈ g.edges ∨ ∃ t ∈ ts, e.2 = heuristicId t := by
  intro ts
  induction ts with
  | nil =>
    intro g g' h
    have h2 : (Except.ok g : Except String Graph) = .ok g' := h
    injection h2 with h3
    subst h3
    exact fun e he => Or.inl he
  | cons t rest ih =>
    intro g g' h
    rw [List.foldlM_cons] at h
    cases hp : processTakeaway pt cs g t with
    | error e =>
      rw [hp] at h
      have h2 : (Except.error e : Except String Graph) = .ok g' := h
      cases h2
    | ok g1 =>
      rw [hp] at h
      have h2 : rest.foldlM (processTakeaway pt cs) g1 = .ok g' := h
      intro e he
      rcases ih g1 g' h2 e he with h3 | ⟨t', ht', he'⟩
      · rcases processTakeaway_edges_inv pt cs g t g1 hp e h3 with h4 | h4
        · exact Or.inl h4
        · exact Or.inr ⟨t, List.mem_cons_self t rest, h4⟩
      · exact Or.inr ⟨t', List.mem_cons_of_mem t ht', he'⟩

/-! ## Claim theorems: experience hub writes -/

/-- C7: each non-blank abstracted takeaway is stored under its content-hash
identity: a missing `Heuristic` node is created with
`positive_count = 0, negative_count = 1`; an existing one keeps its text and
`positive_count` and has `negative_count` incremented by exactly one; the node
is linked from the `ProblemType` node and from every named `Concept` node.
Consequently (third conjunct, computed through `add_experience`), writing the
identical takeaway twice for the same problem category leaves
`negative_count = 2` with exactly one node for that heuristic, still linked
from the problem and concept nodes. -/
theorem heuristic_write_idempotent_upsert :
    (∀ (g : Graph) (pt : String) (cs : List String) (t : String),
      isBlank t = false → hasNode g (heuristicId t) = false →
      ∃ g', processTakeaway pt cs g t = .ok g' ∧
        getNode g' (heuristicId t) = some (.heuristicData t 0 1) ∧
        g'.edges.contains (problemId pt, heuristicId t) = true ∧
        ∀ c ∈ cs, g'.edges.contains (conceptId c, heuristicId t) = true) ∧
    (∀ (g : Graph) (pt : String) (cs : List String) (t tx : String) (p n : Int),
      isBlank t = false → getNode g (heuristicId t) = some (.heuristicData tx p n) →
      ∃ g', processTakeaway pt cs g t = .ok g' ∧
        getNode g' (heuristicId t) = some (.heuristicData tx p (n + 1)) ∧
        g'.edges.contains (problemId pt, heuristicId t) = true ∧
        ∀ c ∈ cs, g'.edges.contains (conceptId c, heuristicId t) = true) ∧
    ((do
        let g1 ← add_experience c7ta ⟨none⟩ ⟨none⟩ (some c7learnings) ⟨[], []⟩
        add_experience c7ta ⟨none⟩ ⟨none⟩ (some c7learnings) g1 :
        Except String Graph).map
      (fun g => (getNode g (heuristicId "use induction"),
        (g.nodes.filter (fun q => q.1 == heuristicId "use induction")).length,
        g.edges.contains (problemId "algebra", heuristicId "use induction"),
        g.edges.contains (conceptId "polynomials", heuristicId "use induction"))) =
      .ok (some (.heuristicData "use induction" 0 2), 1, true, true)) :=
  ⟨fun g pt cs t => processTakeaway_new pt cs g t,
    fun g pt cs t tx p n => processTakeaway_existing pt cs g t tx p n, rfl⟩

/-- C7 witness: the fresh write creates the node with counters `(0, 1)` in the
empty graph; the repeated write on the resulting graph increments
`negative_count` to `1 + 1`, with the problem and concept links present. -/
theorem heuristic_write_witness :
    (∃ g', processTakeaway "algebra" ["polynomials"] ⟨[], []⟩ "use induction" = .ok g' ∧
      getNode g' (heuristicId "use induction") =
        some (.heuristicData "use induction" 0 1) ∧
      g'.edges.contains (problemId "algebra", heuristicId "use induction") = true ∧
      ∀ c ∈ ["polynomials"],
        g'.edges.contains (conceptId c, heuristicId "use induction") = true) ∧
    (∃ g', processTakeaway "algebra" ["polynomials"] c10graph "use induction" = .ok g' ∧
      getNode g' (heuristicId "use induction") =
        some (.heuristicData "use induction" 0 (1 + 1)) ∧
      g'.edges.contains (problemId "algebra", heuristicId "use induction") = true ∧
      ∀ c ∈ ["polynomials"],
        g'.edges.contains (conceptId c, heuristicId "use induction") = true) := by
  have h := heuristic_write_idempotent_upsert
  exact ⟨h.1 ⟨[], []⟩ "algebra" ["polynomials"] "use induction" (by decide) (by decide),
    h.2.1 c10graph "algebra" ["polynomials"] "use induction" "use induction" 0 1
      (by decide) (by decide)⟩

/-- C10: when the `learnings` argument carries at least one non-blank abstract
takeaway, `add_experience` runs only the failure-with-lessons branch — even
when the evaluation score is at least 0.8: no pattern node is created, removed
or modified, no heuristic `positive_count` changes (`negative_count` can only
grow), and every new edge points at the heuristic node of one of the
takeaways (so no pattern node is linked). -/
theorem lessons_branch_excludes_success (ta : TaskAnalysis) (res : ResultInfo)
    (ev : EvalInfo) (l : Learnings) (g g' : Graph)
    (hne : ∃ t ∈ l.abstractTakeaways, isBlank t = false)
    (h : add_experience ta res ev (some l) g = .ok g') :
    add_experience ta res ev (some l) g =
      l.abstractTakeaways.foldlM
        (processTakeaway (problemTypeOf ta) ta.knowledgeDomains) g ∧
    preservesKnowledge g g' ∧
    (∀ e ∈ g'.edges, e ∈ g.edges ∨ ∃ t ∈ l.abstractTakeaways, e.2 = heuristicId t) := by
  have hnonempty : l.abstractTakeaways ≠ [] := by
    obtain ⟨t, ht, _⟩ := hne
    intro hnil
    rw [hnil] at ht
    cases ht
  have hcond : lessonsTaken (some l) = true := by
    simp [lessonsTaken, List.isEmpty_iff, hnonempty]
  have hbr : add_experience ta res ev (some l) g =
      l.abstractTakeaways.foldlM
        (processTakeaway (problemTypeOf ta) ta.knowledgeDomains) g := by
    simp only [add_experience]
    rw [if_pos hcond]
  rw [hbr] at h
  exact ⟨hbr,
    foldlM_processTakeaway_preserves (problemTypeOf ta) ta.knowledgeDomains
      l.abstractTakeaways g g' h,
    foldlM_processTakeaway_edges_inv (problemTypeOf ta) ta.knowledgeDomains
      l.abstractTakeaways g g' h⟩

/-- C10 witness: a lessons write with score 0.9 (success-worthy) on the empty
graph produces `c10graph`, which contains no pattern node and whose edges all
point at the takeaway's heuristic node. -/
theorem lessons_branch_witness :
    preservesKnowledge ⟨[], []⟩ c10graph ∧
    (∀ e ∈ c10graph.edges, e ∈ (⟨[], []⟩ : Graph).edges ∨
      ∃ t ∈ c7learnings.abstractTakeaways, e.2 = heuristicId t) := by
  have h := lessons_branch_excludes_success c7ta c1res c1ev c7learnings ⟨[], []⟩ c10graph
    (by decide) rfl
  exact ⟨h.2.1, h.2.2⟩

/-- C1 (amended): a success-outcome write (score at least 0.8, lessons branch
not taken, a collaboration plan present, and no heuristics retrievable for the
category — otherwise the call raises) upserts a `Pattern` node keyed by the
content hash of the canonicalised plan and links it from the `ProblemType`
node.  The node's attributes are `type` and `plan` only: NO `successCount`
and NO `lastUsed` field exists.  When the pattern node and the problem node
already exist, the node count is unchanged, and when the link also already
exists the whole write is the identity on the graph — in particular the
second write of an identical plan updates no counter of any kind. -/
theorem pattern_upsert_no_counter (ta : TaskAnalysis) (res : ResultInfo)
    (ev : EvalInfo) (learnings : Option Learnings) (g : Graph) (p : String)
    (hL : lessonsTaken learnings = false)
    (hs : ev.score.getD 0 ≥ mkRat 4 5)
    (hp : res.collaborationPlan = some p)
    (hrel : relevantHeuristicIds (patternUpsert (problemTypeOf ta) p g) ta = []) :
    add_experience ta res ev learnings g = .ok (patternUpsert (problemTypeOf ta) p g) ∧
    getNode (patternUpsert (problemTypeOf ta) p g) (patternId p) =
      some (.patternData p) ∧
    (patternUpsert (problemTypeOf ta) p g).edges.contains
      (problemId (problemTypeOf ta), patternId p) = true ∧
    (hasNode g (patternId p) = true → hasNode g (problemId (problemTypeOf ta)) = true →
      (patternUpsert (problemTypeOf ta) p g).nodes.length = g.nodes.length) ∧
    ((g.nodes.map Prod.fst).Nodup → getNode g (patternId p) = some (.patternData p) →
      hasNode g (problemId (problemTypeOf ta)) = true →
      g.edges.contains (problemId (problemTypeOf ta), patternId p) = true →
      patternUpsert (problemTypeOf ta) p g = g) := by
  refine ⟨?_, ?_, ?_, ?_, ?_⟩
  · have h2 : successBranch (problemTypeOf ta) ta res g =
        .ok (patternUpsert (problemTypeOf ta) p g) := by
      simp only [successBranch, hp]
      rw [retrieve_relevant_heuristics, hrel]
      rfl
    simp only [add_experience]
    rw [if_neg (by simp [hL]), if_pos hs]
    exact h2
  · rw [patternUpsert]
    exact getNode_addEdge_of_some _ _ _ _ _ (getNode_setNode_self g (patternId p) _)
  · rw [patternUpsert]
    exact addEdge_contains_self _ _ _
  · intro hpid hprob
    have hX : hasNode (setNode g (patternId p) (.patternData p))
        (problemId (problemTypeOf ta)) = true := by
      rw [hasNode_setNode_of_present g _ _ _ hpid]
      exact hprob
    have hXv : hasNode (setNode g (patternId p) (.patternData p)) (patternId p) = true := by
      rw [hasNode_setNode_of_present g _ _ _ hpid]
      exact hpid
    rw [patternUpsert, addEdge_nodes, ensureNode_of_hasNode _ _ hX,
      ensureNode_of_hasNode _ _ hXv]
    exact setNode_length_of_present g _ _ hpid
  · intro hnd hget hprob hedge
    rw [patternUpsert, setNode_eq_self g _ _ hnd hget]
    exact addEdge_eq_self g _ _ hprob (hasNode_true_of_getNode_some g _ _ hget) hedge

/-- C1 witness: a second success write of the identical plan `PLAN` on the
graph that already stores it is the identity. -/
theorem pattern_upsert_witness :
    add_experience c1ta c1res c1ev none c1graph =
      .ok (patternUpsert "math" "PLAN" c1graph) ∧
    patternUpsert "math" "PLAN" c1graph = c1graph := by
  have h := pattern_upsert_no_counter c1ta c1res c1ev none c1graph "PLAN"
    rfl (by decide) rfl rfl
  exact ⟨h.1, h.2.2.2.2 (by decide) rfl rfl rfl⟩

/-- C1 counterexample: storing the successful plan `PLAN` creates a pattern
node whose attributes are `type` and `plan` only — there is no
`successCount = 1` — and the second identical write returns the graph
completely unchanged, so no `successCount` is incremented and no `lastUsed`
is updated, contradicting the claim. -/
theorem c1_counterexample :
    add_experience c1ta c1res c1ev none ⟨[], []⟩ = .ok c1graph ∧
    add_experience c1ta c1res c1ev none c1graph = .ok c1graph ∧
    getNode c1graph (patternId "PLAN") = some (.patternData "PLAN") ∧
    c1graph.nodes.length = 2 :=
  ⟨rfl, rfl, rfl, rfl⟩

/-! ## Lemmas about the read path (`retrieve_relevant_heuristics`) -/

theorem insertDesc_perm (score : String → Int) (x : String) :
    ∀ l : List String, (insertDesc score x l).Perm (x :: l) := by
  intro l
  induction l with
  | nil => exact List.Perm.refl _
  | cons y ys ih =>
    simp only [insertDesc]
    split
    · exact List.Perm.refl _
    · exact (ih.cons y).trans (List.Perm.swap x y ys)

theorem sortDesc_perm (score : String → Int) :
    ∀ l : List String, (sortDesc score l).Perm l := by
  intro l
  induction l with
  | nil => exact List.Perm.refl _
  | cons a t ih =>
    exact (insertDesc_perm score a (sortDesc score t)).trans (ih.cons a)

theorem insertDesc_pairwise (score : String → Int) (x : String) :
    ∀ l : List String, List.Pairwise (fun a b => score b ≤ score a) l →
    List.Pairwise (fun a b => score b ≤ score a) (insertDesc score x l) := by
  intro l
  induction l with
  | nil => intro _; exact List.pairwise_singleton _ _
  | cons y ys ih =>
    intro hp
    rw [List.pairwise_cons] at hp
    obtain ⟨hy, hys⟩ := hp
    simp only [insertDesc]
    split
    · rename_i hc
      rw [List.pairwise_cons]
      refine ⟨?_, List.Pairwise.cons hy hys⟩
      intro z hz
      rcases List.mem_cons.mp hz with rfl | hz2
      · exact hc
      · exact le_trans (hy z hz2) hc
    · rename_i hc
      push_neg at hc
      rw [List.pairwise_cons]
      refine ⟨?_, ih hys⟩
      intro z hz
      have hz' : z ∈ x :: ys := (insertDesc_perm score x ys).mem_iff.mp hz
      rcases List.mem_cons.mp hz' with rfl | hz2
      · exact le_of_lt hc
      · exact hy z hz2

theorem sortDesc_pairwise (score : String → Int) :
    ∀ l : List String,
    List.Pairwise (fun a b => score b ≤ score a) (sortDesc score l) := by
  intro l
  induction l with
  | nil => exact List.Pairwise.nil
  | cons a t ih => exact insertDesc_pairwise score a (sortDesc score t) ih

theorem mem_ite_append (x s : String) (acc : List String) (c : Bool)
    (h : x ∈ acc) : x ∈ (if c = true then acc ++ [s] else acc) := by
  cases c with
  | true => rw [if_pos rfl]; exact List.mem_append_left _ h
  | false => rw [if_neg (by simp)]; exact h

theorem mem_collectHeuristics_inner (g : Graph) :
    ∀ (ss : List String) (acc : List String) (x : String),
    x ∈ ss.foldl (fun acc2 s =>
        if isHeuristicNode g s && !(acc2.contains s) then acc2 ++ [s] else acc2) acc ↔
    x ∈ acc ∨ (isHeuristicNode g x = true ∧ x ∈ ss) := by
  intro ss
  induction ss with
  | nil =>
    intro acc x
    simp
  | cons s t ih =>
    intro acc x
    rw [List.foldl_cons, ih]
    constructor
    · rintro (hx | ⟨hh, hx⟩)
      · by_cases hc : (isHeuristicNode g s && !(acc.contains s)) = true
        · rw [if_pos hc] at hx
          rcases List.mem_append.mp hx with h1 | h1
          · exact Or.inl h1
          · rw [List.mem_singleton] at h1
            subst h1
            rw [Bool.and_eq_true] at hc
            exact Or.inr ⟨hc.1, List.mem_cons_self _ _⟩
        · rw [if_neg hc] at hx
          exact Or.inl hx
      · exact Or.inr ⟨hh, List.mem_cons_of_mem s hx⟩
    · rintro (hx | ⟨hh, hx⟩)
      · exact Or.inl (mem_ite_append x s acc _ hx)
      · rcases List.mem_cons.mp hx with rfl | hx2
        · by_cases hc : (isHeuristicNode g x && !(acc.contains x)) = true
          · left
            rw [if_pos hc]
            exact List.mem_append_right _ (List.mem_singleton.mpr rfl)
          · have hacc : x ∈ acc := by
              cases hct : acc.contains x with
              | true => simpa using hct
              | false =>
                refine absurd ?_ hc
                rw [hh, hct]
                rfl
            exact Or.inl (mem_ite_append x x acc _ hacc)
        · exact Or.inr ⟨hh, hx2⟩

theorem mem_collectHeuristics (g : Graph) :
    ∀ (srcs : List String) (acc : List String) (x : String),
    x ∈ srcs.foldl (fun acc src =>
        if hasNode g src then
          (successors g src).foldl (fun acc2 s =>
            if isHeuristicNode g s && !(acc2.contains s) then acc2 ++ [s] else acc2) acc
        else acc) acc ↔
    x ∈ acc ∨ ∃ src ∈ srcs, hasNode g src = true ∧ isHeuristicNode g x = true ∧
      x ∈ successors g src := by
  intro srcs
  induction srcs with
  | nil =>
    intro acc x
    simp
  | cons s0 t ih =>
    intro acc x
    rw [List.foldl_cons, ih]
    by_cases hs : hasNode g s0 = true
    · rw [if_pos hs, mem_collectHeuristics_inner g (successors g s0) acc x]
      constructor
      · rintro ((hx | ⟨hh, hx⟩) | ⟨src, hsrc, h1, h2, h3⟩)
        · exact Or.inl hx
        · exact Or.inr ⟨s0, List.mem_cons_self _ _, hs, hh, hx⟩
        · exact Or.inr ⟨src, List.mem_cons_of_mem s0 hsrc, h1, h2, h3⟩
      · rintro (hx | ⟨src, hsrc, h1, h2, h3⟩)
        · exact Or.inl (Or.inl hx)
        · rcases List.mem_cons.mp hsrc with rfl | hsrc2
          · exact Or.inl (Or.inr ⟨h2, h3⟩)
          · exact Or.inr ⟨src, hsrc2, h1, h2, h3⟩
    · rw [if_neg hs]
      constructor
      · rintro (hx | ⟨src, hsrc, h1, h2, h3⟩)
        · exact Or.inl hx
        · exact Or.inr ⟨src, List.mem_cons_of_mem s0 hsrc, h1, h2, h3⟩
      · rintro (hx | ⟨src, hsrc, h1, h2, h3⟩)
        · exact Or.inl hx
        · rcases List.mem_cons.mp hsrc with rfl | hsrc2
          · exact absurd h1 hs
          · exact Or.inr ⟨src, hsrc2, h1, h2, h3⟩

theorem mem_relevantHeuristicIds (g : Graph) (ta : TaskAnalysis) (x : String) :
    x ∈ relevantHeuristicIds g ta ↔
    ∃ src ∈ sourceNodes ta, hasNode g src = true ∧ isHeuristicNode g x = true ∧
      x ∈ successors g src := by
  rw [relevantHeuristicIds, mem_collectHeuristics g (sourceNodes ta) [] x]
  simp

/-! ## Claim theorems: experience hub read path -/

/-- C8 (amended): for every retrieval query, the collected ids are exactly the
heuristic-typed nodes reachable in one hop from the (present) problem-type
node and the named concept nodes; the returned texts are those ids sorted by
`positive_count − negative_count` descending with a stable sort — but the
order the sort stabilises is the unspecified iteration order of the Python
set `relevant_heuristic_ids`, modelled by the explicit `listing` (any
duplicate-free permutation of the collected ids), NOT the graph insertion
order. -/
theorem retrieve_ranking (g : Graph) (ta : TaskAnalysis) (listing : List String)
    (hperm : listing.Perm (relevantHeuristicIds g ta)) :
    (∀ x, x ∈ relevantHeuristicIds g ta ↔
      ∃ src ∈ sourceNodes ta, hasNode g src = true ∧ isHeuristicNode g x = true ∧
        x ∈ successors g src) ∧
    (sortDesc (heuristicScore g) listing).Perm (relevantHeuristicIds g ta) ∧
    List.Pairwise (fun a b => heuristicScore g b ≤ heuristicScore g a)
      (sortDesc (heuristicScore g) listing) ∧
    retrieveWithListing g listing =
      (sortDesc (heuristicScore g) listing).map (heuristicText g) :=
  ⟨fun x => mem_relevantHeuristicIds g ta x,
    (sortDesc_perm (heuristicScore g) listing).trans hperm,
    sortDesc_pairwise (heuristicScore g) listing, rfl⟩

/-- C8 witness: the ranking theorem applied to the two-heuristic graph with
the first-encounter listing. -/
theorem retrieve_ranking_witness :
    (heuristicId "tA" ∈ relevantHeuristicIds c8graph c8ta ↔
      ∃ src ∈ sourceNodes c8ta, hasNode c8graph src = true ∧
        isHeuristicNode c8graph (heuristicId "tA") = true ∧
        heuristicId "tA" ∈ successors c8graph src) ∧
    (sortDesc (heuristicScore c8graph) (relevantHeuristicIds c8graph c8ta)).Perm
      (relevantHeuristicIds c8graph c8ta) := by
  have h := retrieve_ranking c8graph c8ta (relevantHeuristicIds c8graph c8ta)
    (List.Perm.refl _)
  exact ⟨h.1 (heuristicId "tA"), h.2.1⟩

/-- C8 counterexample: `tA` is inserted before `tB` and both tie at score
`0 − 1`; under the set listing `[tB, tA]` — a valid listing of the collected
set — the retrieval returns `["tB", "tA"]`, not the insertion order
`["tA", "tB"]` the claim requires, so ties are NOT broken by insertion
order. -/
theorem c8_counterexample :
    add_experience c8ta ⟨none⟩ ⟨none⟩ (some c8learnings) ⟨[], []⟩ = .ok c8graph ∧
    relevantHeuristicIds c8graph c8ta = [heuristicId "tA", heuristicId "tB"] ∧
    [heuristicId "tB", heuristicId "tA"].Perm (relevantHeuristicIds c8graph c8ta) ∧
    heuristicScore c8graph (heuristicId "tA") =
      heuristicScore c8graph (heuristicId "tB") ∧
    retrieveWithListing c8graph [heuristicId "tB", heuristicId "tA"] = ["tB", "tA"] ∧
    ("tB" :: "tA" :: ([] : List String)) ≠ ["tA", "tB"] := by
  refine ⟨rfl, rfl, ?_, rfl, rfl, by decide⟩
  rw [show relevantHeuristicIds c8graph c8ta =
    [heuristicId "tA", heuristicId "tB"] from rfl]
  exact List.Perm.swap _ _ _
